import Mathlib

/-!
# Unit3 charts and ExpressionFactor linearization

A shallow embedding of `gtsam/geometry/Unit3.cpp`, of the quaternion chart of
`gtsam/geometry/tests/testQuaternion.cpp` and of
`gtsam_unstable/nonlinear/ExpressionFactor.h`.

C++ `double` is idealised as `ℝ`: the geometric definitions use the real square root,
cosine, sine and arc cosine, so they live in a `noncomputable section`.  Where the range of
the format decides what the code does (a norm that overflows to infinity, a norm whose
squares all underflow to zero, a division by zero), a second definition with the suffix
`Ranged` or `Checked` keeps these events.  The factor part is generic in its scalar type and
is executable.
-/

namespace gtsam

noncomputable section

/-! ## Small fixed-size vectors and matrices -/

/-- Point3 holds three coordinates; Eigen `Vector3` values are represented by the same record. -/
@[ext]
structure Point3 where
  x : ℝ
  y : ℝ
  z : ℝ

/-- Eigen `Vector3`. -/
abbrev Vector3 := Point3

/-- Eigen `Vector2`; `v(0)` is `v.x` and `v(1)` is `v.y`. -/
@[ext]
structure Vector2 where
  x : ℝ
  y : ℝ

/-- Eigen `Matrix32`, entries named row then column. -/
@[ext]
structure Matrix32 where
  m00 : ℝ
  m01 : ℝ
  m10 : ℝ
  m11 : ℝ
  m20 : ℝ
  m21 : ℝ

/-- Eigen `Matrix23`, entries named row then column. -/
@[ext]
structure Matrix23 where
  m00 : ℝ
  m01 : ℝ
  m02 : ℝ
  m10 : ℝ
  m11 : ℝ
  m12 : ℝ

/-- Eigen `Matrix2`. -/
@[ext]
structure Matrix2 where
  m00 : ℝ
  m01 : ℝ
  m10 : ℝ
  m11 : ℝ

/-- Eigen `Matrix<double,1,2>`, the shape of `OptionalJacobian<1,2>`. -/
@[ext]
structure Matrix12 where
  m00 : ℝ
  m01 : ℝ

/-- Eigen `Matrix33`, entries named row then column. -/
@[ext]
structure Matrix33 where
  m00 : ℝ
  m01 : ℝ
  m02 : ℝ
  m10 : ℝ
  m11 : ℝ
  m12 : ℝ
  m20 : ℝ
  m21 : ℝ
  m22 : ℝ

/-- Eigen `Matrix62` as its two 3×2 blocks: `top` is `block<3,2>(0,0)` and `bottom` is
`block<3,2>(3,0)`. -/
@[ext]
structure Matrix62 where
  top : Matrix32
  bottom : Matrix32

namespace Point3

/-- The method `Point3::vector()`. -/
def vector (p : Point3) : Vector3 := p

instance : Add Point3 := ⟨fun p q => ⟨p.x + q.x, p.y + q.y, p.z + q.z⟩⟩
instance : Sub Point3 := ⟨fun p q => ⟨p.x - q.x, p.y - q.y, p.z - q.z⟩⟩
instance : Neg Point3 := ⟨fun p => ⟨-p.x, -p.y, -p.z⟩⟩
instance : HMul ℝ Point3 Point3 := ⟨fun s p => ⟨s * p.x, s * p.y, s * p.z⟩⟩
instance : HMul Point3 ℝ Point3 := ⟨fun p s => ⟨p.x * s, p.y * s, p.z * s⟩⟩
instance : HDiv Point3 ℝ Point3 := ⟨fun p s => ⟨p.x / s, p.y / s, p.z / s⟩⟩

/-- Modelled from the spec: `Point3::dot` (Point3.cpp is not part of the sources), the inner
product. -/
def dot (p q : Point3) : ℝ := p.x * q.x + p.y * q.y + p.z * q.z

/-- Modelled from the spec: `Point3::norm` / Eigen `norm()`, the Euclidean length. -/
def norm (p : Point3) : ℝ := Real.sqrt (p.x * p.x + p.y * p.y + p.z * p.z)

/-- Modelled from the spec: `Point3::cross`, the vector product `p × q`. -/
def cross (p q : Point3) : Point3 :=
  ⟨p.y * q.z - p.z * q.y, p.z * q.x - p.x * q.z, p.x * q.y - p.y * q.x⟩

/-- Modelled from the spec: `Point3::normalize`, the point divided by its norm. -/
def normalize (p : Point3) : Point3 := p / p.norm

end Point3

namespace Vector2

/-- Eigen `norm()` of a 2-vector. -/
def norm (v : Vector2) : ℝ := Real.sqrt (v.x * v.x + v.y * v.y)

end Vector2

namespace Matrix32

/-- Eigen `col(j)`: column 0 for `j = 0`, column 1 otherwise. -/
def col (B : Matrix32) (j : Nat) : Vector3 :=
  if j = 0 then ⟨B.m00, B.m10, B.m20⟩ else ⟨B.m01, B.m11, B.m21⟩

/-- Eigen `transpose()`. -/
def transpose (B : Matrix32) : Matrix23 :=
  ⟨B.m00, B.m10, B.m20, B.m01, B.m11, B.m21⟩

/-- Sum of two 3×2 matrices. -/
def add (A B : Matrix32) : Matrix32 :=
  ⟨A.m00 + B.m00, A.m01 + B.m01, A.m10 + B.m10, A.m11 + B.m11, A.m20 + B.m20, A.m21 + B.m21⟩

end Matrix32

namespace Matrix33

/-- Product of two 3×3 matrices. -/
def mul (A B : Matrix33) : Matrix33 :=
  ⟨A.m00 * B.m00 + A.m01 * B.m10 + A.m02 * B.m20,
   A.m00 * B.m01 + A.m01 * B.m11 + A.m02 * B.m21,
   A.m00 * B.m02 + A.m01 * B.m12 + A.m02 * B.m22,
   A.m10 * B.m00 + A.m11 * B.m10 + A.m12 * B.m20,
   A.m10 * B.m01 + A.m11 * B.m11 + A.m12 * B.m21,
   A.m10 * B.m02 + A.m11 * B.m12 + A.m12 * B.m22,
   A.m20 * B.m00 + A.m21 * B.m10 + A.m22 * B.m20,
   A.m20 * B.m01 + A.m21 * B.m11 + A.m22 * B.m21,
   A.m20 * B.m02 + A.m21 * B.m12 + A.m22 * B.m22⟩

/-- Product of a 3×3 matrix with a 3×2 matrix. -/
def mul32 (A : Matrix33) (B : Matrix32) : Matrix32 :=
  ⟨A.m00 * B.m00 + A.m01 * B.m10 + A.m02 * B.m20,
   A.m00 * B.m01 + A.m01 * B.m11 + A.m02 * B.m21,
   A.m10 * B.m00 + A.m11 * B.m10 + A.m12 * B.m20,
   A.m10 * B.m01 + A.m11 * B.m11 + A.m12 * B.m21,
   A.m20 * B.m00 + A.m21 * B.m10 + A.m22 * B.m20,
   A.m20 * B.m01 + A.m21 * B.m11 + A.m22 * B.m21⟩

end Matrix33

namespace Matrix23

/-- Product of a 2×3 matrix with a 3-vector. -/
def mulVec (A : Matrix23) (q : Vector3) : Vector2 :=
  ⟨A.m00 * q.x + A.m01 * q.y + A.m02 * q.z, A.m10 * q.x + A.m11 * q.y + A.m12 * q.z⟩

/-- Product of a 2×3 matrix with a 3×2 matrix. -/
def mul32 (A : Matrix23) (B : Matrix32) : Matrix2 :=
  ⟨A.m00 * B.m00 + A.m01 * B.m10 + A.m02 * B.m20,
   A.m00 * B.m01 + A.m01 * B.m11 + A.m02 * B.m21,
   A.m10 * B.m00 + A.m11 * B.m10 + A.m12 * B.m20,
   A.m10 * B.m01 + A.m11 * B.m11 + A.m12 * B.m21⟩

end Matrix23

/-! ## Unit3 -/

/-- The Unit3 class: the stored point `p_`.  The memo cells `B_` and `H_B_` only save
recomputation; `Unit3.basis` below is the value they hold, and `Unit3.basisMemo` is the
method with the cells made explicit. -/
@[ext]
structure Unit3 where
  p_ : Point3

namespace Unit3

/-- A unit direction: the stored point has Euclidean norm 1. -/
def IsUnitDirection (u : Unit3) : Prop := u.p_.norm = 1

/-- The two columns of `B` are an orthonormal pair in the plane orthogonal to `n`. -/
structure TangentFrame (n : Point3) (B : Matrix32) : Prop where
  b1b1 : B.m00 * B.m00 + B.m10 * B.m10 + B.m20 * B.m20 = 1
  b2b2 : B.m01 * B.m01 + B.m11 * B.m11 + B.m21 * B.m21 = 1
  b1b2 : B.m00 * B.m01 + B.m10 * B.m11 + B.m20 * B.m21 = 0
  nb1 : n.x * B.m00 + n.y * B.m10 + n.z * B.m20 = 0
  nb2 : n.x * B.m01 + n.y * B.m11 + n.z * B.m21 = 0

/-- The method `Unit3::point3()` without a derivative request. -/
def point3 (u : Unit3) : Point3 := u.p_

/-- The axis selection of `Unit3::basis`; `none` is the `assert(false)` branch. -/
def basisAxis (n : Point3) : Option Point3 :=
  let mx := |n.x|
  let my := |n.y|
  let mz := |n.z|
  if (mx ≤ my) ∧ (mx ≤ mz) then some ⟨1, 0, 0⟩
  else if (my ≤ mx) ∧ (my ≤ mz) then some ⟨0, 1, 0⟩
  else if (mz ≤ mx) ∧ (mz ≤ my) then some ⟨0, 0, 1⟩
  else none

/-- The rest of `Unit3::basis` once the axis is chosen: `B1 = n × axis`, `b1 = B1 / |B1|`,
`b2 = n × b1`, stacked as the two columns of a 3×2 matrix. -/
def basisFromAxis (n axis : Point3) : Matrix32 :=
  let B1 := n.cross axis
  let b1 := B1.normalize
  let b2 := n.cross b1
  ⟨b1.x, b2.x, b1.y, b2.y, b1.z, b2.z⟩

/-- The method `Unit3::basis()` without a derivative request. -/
def basis (u : Unit3) : Option Matrix32 :=
  let n := u.p_
  (basisAxis n).map (basisFromAxis n)

/-- The method `Unit3::error(q, H_q)`: the 2D error `Bᵀ q`, and `Bᵀ · q.basis()` when
`H_q` is requested. -/
def error (u q : Unit3) (wantH_q : Bool) : Option (Vector2 × Option Matrix2) := do
  let B ← u.basis
  let Bt := B.transpose
  let xi := Bt.mulVec q.p_.vector
  if wantH_q then
    let Bq ← q.basis
    pure (xi, some (Bt.mul32 Bq))
  else
    pure (xi, none)

/-- The method `Unit3::distance(q, H)`: the norm of `error(q, H_)`; the local `Matrix2 H_`
is always passed to `error`, and `H = (xiᵀ / theta) · H_` when requested.  The source has
no guard on `theta`: where `theta = 0` the quotient is 0/0, which is NaN for a `double` and
0 by convention in `ℝ`. -/
def distance (u q : Unit3) (wantH : Bool) : Option (ℝ × Option Matrix12) := do
  let (xi, H_) ← u.error q true
  let theta := xi.norm
  if wantH then
    let H := H_.map fun (M : Matrix2) =>
      (⟨xi.x / theta * M.m00 + xi.y / theta * M.m10,
        xi.x / theta * M.m01 + xi.y / theta * M.m11⟩ : Matrix12)
    pure (theta, H)
  else
    pure (theta, none)

/-- Modelled from the spec: the constructors `Unit3(const Point3&)` and
`Unit3(const Vector3&)` declared in Unit3.h, which is not part of the sources.  The spec has
`retract` return the vector it computes, so the constructor stores the vector it is given. -/
def ofVector3 (v : Vector3) : Unit3 := ⟨v⟩

/-- The method `Unit3::retract(v)` in exact arithmetic; `retractRanged` below keeps the
overflow and the underflow of the two norms. -/
def retract (u : Unit3) (v : Vector2) : Option Unit3 := do
  let p := u.p_.vector
  let B ← u.basis
  let xi_hat : Vector3 := v.x * B.col 0 + v.y * B.col 1
  let xi_hat_norm := xi_hat.norm
  if xi_hat_norm = 0 then
    if v.norm = 0 then
      pure (ofVector3 u.point3)
    else
      pure (ofVector3 (-u.point3))
  else
    let exp_p_xi_hat : Vector3 :=
      Real.cos xi_hat_norm * p + Real.sin xi_hat_norm * (xi_hat / xi_hat_norm)
    pure (ofVector3 exp_p_xi_hat)

/-- The method `Unit3::localCoordinates(y)`; a quotient by zero is 0 in `ℝ`, and
`localCoordinatesChecked` below makes the zero divisor visible. -/
def localCoordinates (u y : Unit3) : Option Vector2 :=
  let p := u.p_.vector
  let q := y.p_.vector
  let dot := p.dot q
  if dot > 1 - 1e-16 then
    some ⟨0, 0⟩
  else if dot < -1 + 1e-16 then
    some ⟨Real.pi, 0⟩
  else do
    let theta := Real.arccos dot
    let result_hat : Vector3 := (theta / Real.sin theta) * (q - p * dot)
    let B ← u.basis
    pure (B.transpose.mulVec result_hat)

/-- The function `Unit3::FromPoint3(point)` without a derivative request: the normalised
point, assigned to `p_` directly. -/
def FromPoint3 (point : Point3) : Unit3 :=
  ⟨point.normalize⟩

/-! ### The memoised `basis(H)`

The method reads and writes the two `mutable` cells of the object; they are passed in and
returned.  The derivatives that `Point3::cross` and `Point3::normalize` store through their
optional arguments are defined in Point3.cpp, which is not part of the sources, so they are
parameters of the model. -/

/-- The derivatives stored by the Point3 methods that `basis(H)` calls: `cross_H1 p q` and
`cross_H2 p q` are what `p.cross(q, H1, H2)` stores in `H1` and `H2`, and `normalize_H p` is
what `p.normalize(H)` stores in `H`. -/
structure Point3Jacobians where
  cross_H1 : Point3 → Point3 → Matrix33
  cross_H2 : Point3 → Point3 → Matrix33
  normalize_H : Point3 → Matrix33

/-- The memo cells `B_` and `H_B_` of a Unit3 object. -/
structure BasisCache where
  B_ : Option Matrix32
  H_B_ : Option Matrix62

/-- The chain rule block of `Unit3::basis(H)` once the axis is chosen: `H_b1_p` stacked on
`H_b2_p`. -/
def basisDerivative (D : Point3Jacobians) (n axis : Point3) : Matrix62 :=
  let H_B1_n := D.cross_H1 n axis
  let B1 := n.cross axis
  let H_b1_B1 := D.normalize_H B1
  let b1 := B1.normalize
  let H_b2_n := D.cross_H1 n b1
  let H_b2_b1 := D.cross_H2 n b1
  let H_n_p := basisFromAxis n axis
  let H_b1_p := (H_b1_B1.mul H_B1_n).mul32 H_n_p
  let H_b2_p := (H_b2_n.mul32 H_n_p).add (H_b2_b1.mul32 H_b1_p)
  ⟨H_b1_p, H_b2_p⟩

/-- The part of `Unit3::basis(H)` after the two cache tests: the basis is computed and stored
in `B_`; when `H` is requested the derivative is computed, stored in `H_B_` and returned. -/
def basisCompute (D : Point3Jacobians) (u : Unit3) (cache : BasisCache) (wantH : Bool) :
    Option ((Matrix32 × Option Matrix62) × BasisCache) :=
  let n := u.p_
  match basisAxis n with
  | none => none
  | some axis =>
    let B := basisFromAxis n axis
    if wantH then
      let H_B := basisDerivative D n axis
      some ((B, some H_B), ⟨some B, some H_B⟩)
    else
      some ((B, none), ⟨some B, cache.H_B_⟩)

/-- The method `Unit3::basis(H)` with its memo cells: the returned basis, the derivative when
requested, and the cells after the call; `none` is the `assert(false)` branch. -/
def basisMemo (D : Point3Jacobians) (u : Unit3) (cache : BasisCache) (wantH : Bool) :
    Option ((Matrix32 × Option Matrix62) × BasisCache) :=
  match cache.B_ with
  | some B =>
    if !wantH then
      some ((B, none), cache)
    else
      match cache.H_B_ with
      | some H_B => some ((B, some H_B), cache)
      | none => basisCompute D u cache wantH
  | none => basisCompute D u cache wantH

/-- A sequence of `basis` calls on one object, each with its derivative request, threading
the memo cells; the results are listed in call order. -/
def basisCalls (D : Point3Jacobians) (u : Unit3) :
    List Bool → BasisCache → Option (List (Matrix32 × Option Matrix62) × BasisCache)
  | [], cache => some ([], cache)
  | wantH :: rest, cache =>
    match basisMemo D u cache wantH with
    | none => none
    | some (r, cache1) =>
      match basisCalls D u rest cache1 with
      | none => none
      | some (rs, cache2) => some (r :: rs, cache2)

/-- A choice of the Point3 derivatives, used to instantiate the theorems: the analytic
derivatives of `p × q` in `p` and in `q`, and of `p / ‖p‖` in `p`. -/
def analyticJacobians : Point3Jacobians where
  cross_H1 := fun _ q => ⟨0, q.z, -q.y, -q.z, 0, q.x, q.y, -q.x, 0⟩
  cross_H2 := fun p _ => ⟨0, -p.z, p.y, p.z, 0, -p.x, -p.y, p.x, 0⟩
  normalize_H := fun p =>
    ⟨(p.y * p.y + p.z * p.z) / p.norm ^ 3, -(p.x * p.y) / p.norm ^ 3, -(p.x * p.z) / p.norm ^ 3,
     -(p.x * p.y) / p.norm ^ 3, (p.x * p.x + p.z * p.z) / p.norm ^ 3, -(p.y * p.z) / p.norm ^ 3,
     -(p.x * p.z) / p.norm ^ 3, -(p.y * p.z) / p.norm ^ 3, (p.x * p.x + p.y * p.y) / p.norm ^ 3⟩

end Unit3

/-! ## Quaternion chart (testQuaternion.cpp) -/

/-- Eigen `Quaternion<double>`: scalar part `w` and vector part `(x, y, z)`. -/
@[ext]
structure Quaternion where
  w : ℝ
  x : ℝ
  y : ℝ
  z : ℝ

namespace Quaternion

/-- Eigen quaternion product (Hamilton product). -/
def mul (a b : Quaternion) : Quaternion :=
  ⟨a.w * b.w - a.x * b.x - a.y * b.y - a.z * b.z,
   a.w * b.x + a.x * b.w + a.y * b.z - a.z * b.y,
   a.w * b.y + a.y * b.w + a.z * b.x - a.x * b.z,
   a.w * b.z + a.z * b.w + a.x * b.y - a.y * b.x⟩

/-- Eigen `Quaternion(AngleAxisd(angle, axis))`: `(cos(angle/2), sin(angle/2) · axis)`. -/
def ofAngleAxis (angle : ℝ) (axis : Vector3) : Quaternion :=
  ⟨Real.cos (angle / 2), Real.sin (angle / 2) * axis.x, Real.sin (angle / 2) * axis.y,
   Real.sin (angle / 2) * axis.z⟩

end Quaternion

namespace QuaternionChart

/-- The function `QuaternionChart::local(p, q)`, called `local_` here because `local` is a
keyword.  It returns `V()`, a default-constructed fixed-size Eigen vector, whose coefficients
are whatever the storage holds: `uninit`. -/
def local_ (uninit : Vector3) (_p _q : Quaternion) : Vector3 :=
  uninit

/-- The function `QuaternionChart::retract(p, v)` in exact arithmetic; `retractRanged` below
keeps the overflow of the norm. -/
def retract (p : Quaternion) (v : Vector3) : Quaternion :=
  let theta := v.norm
  if |theta| < 1e-10 then p
  else p.mul (Quaternion.ofAngleAxis theta (v / theta))

end QuaternionChart

/-! ## The range of a double

The definitions above compute in exact real arithmetic.  A `double` has a largest finite
value and a least positive value, and `norm()` squares its coefficients: the squares of large
coefficients round to infinity and the squares of tiny ones round to zero.  The definitions
below repeat `norm()` and its callers with these two events kept; rounding inside the range
is still not modelled. -/

/-- What a computation over doubles delivers once the range of the format is taken into
account: a value, or `nonFinite` when an infinity or a NaN reaches the result. -/
inductive Ranged (α : Type) where
  | finite (a : α)
  | nonFinite

/-- The least magnitude that rounds to infinity: `2^1024 - 2^970`, the largest finite double
plus half a unit in its last place. -/
def overflowBound : ℝ := 2 ^ 1024 - 2 ^ 970

/-- Half the least positive double: `2^-1075`; a product of at most this magnitude is stored
as zero. -/
def underflowBound : ℝ := 1 / 2 ^ 1075

namespace Point3

/-- Eigen `norm()`, the square root of the sum of the squares, over doubles: `none` is
`+inf`, returned when the sum of the squares rounds to infinity, and 0 is returned when every
square rounds to zero.  In between the exact norm stands for the rounded one. -/
def normRanged (p : Point3) : Option ℝ :=
  if overflowBound ≤ p.x * p.x + p.y * p.y + p.z * p.z then none
  else if p.x * p.x ≤ underflowBound ∧ p.y * p.y ≤ underflowBound ∧ p.z * p.z ≤ underflowBound
    then some 0
  else some p.norm

/-- Modelled from the spec: `Point3::normalize` over doubles, the point divided by its norm.
A finite coefficient divided by `+inf` is 0; a coefficient divided by 0 is an infinity or a
NaN. -/
def normalizeRanged (p : Point3) : Ranged Point3 :=
  match p.normRanged with
  | none => Ranged.finite ⟨0, 0, 0⟩
  | some n => if n = 0 then Ranged.nonFinite else Ranged.finite (p / n)

end Point3

namespace Vector2

/-- Eigen `norm()` of a 2-vector over doubles: `none` is `+inf`, and 0 is returned when both
squares round to zero. -/
def normRanged (v : Vector2) : Option ℝ :=
  if overflowBound ≤ v.x * v.x + v.y * v.y then none
  else if v.x * v.x ≤ underflowBound ∧ v.y * v.y ≤ underflowBound then some 0
  else some v.norm

end Vector2

namespace Unit3

/-- The three return statements of `Unit3::retract`, in source order: `Unit3(point3())`,
`Unit3(-point3())` and `Unit3(exp_p_xi_hat)`. -/
inductive RetractBranch where
  | unchanged
  | antipodal
  | exponential

/-- The method `Unit3::retract(v)` over doubles: the return statement taken and the value
returned.  With `xi_hat_norm = +inf` the test `xi_hat_norm == 0.0` fails and
`cos(xi_hat_norm)` is NaN, so the last return delivers NaN coordinates. -/
def retractRanged (u : Unit3) (v : Vector2) : Option (RetractBranch × Ranged Unit3) := do
  let p := u.p_.vector
  let B ← u.basis
  let xi_hat : Vector3 := v.x * B.col 0 + v.y * B.col 1
  match xi_hat.normRanged with
  | none => pure (RetractBranch.exponential, Ranged.nonFinite)
  | some xi_hat_norm =>
    if xi_hat_norm = 0 then
      if v.normRanged = some 0 then
        pure (RetractBranch.unchanged, Ranged.finite (ofVector3 u.point3))
      else
        pure (RetractBranch.antipodal, Ranged.finite (ofVector3 (-u.point3)))
    else
      let exp_p_xi_hat : Vector3 :=
        Real.cos xi_hat_norm * p + Real.sin xi_hat_norm * (xi_hat / xi_hat_norm)
      pure (RetractBranch.exponential, Ranged.finite (ofVector3 exp_p_xi_hat))

/-- The function `Unit3::FromPoint3(point)` over doubles, without a derivative request. -/
def FromPoint3Ranged (point : Point3) : Ranged Unit3 :=
  match point.normalizeRanged with
  | Ranged.finite q => Ranged.finite ⟨q⟩
  | Ranged.nonFinite => Ranged.nonFinite

/-- The method `Unit3::localCoordinates(y)` with the division `theta / sin(theta)` checked:
a zero divisor delivers an infinity or a NaN. -/
def localCoordinatesChecked (u y : Unit3) : Option (Ranged Vector2) :=
  let p := u.p_.vector
  let q := y.p_.vector
  let dot := p.dot q
  if dot > 1 - 1e-16 then
    some (Ranged.finite ⟨0, 0⟩)
  else if dot < -1 + 1e-16 then
    some (Ranged.finite ⟨Real.pi, 0⟩)
  else do
    let theta := Real.arccos dot
    if Real.sin theta = 0 then
      let _ ← u.basis
      pure Ranged.nonFinite
    else
      let result_hat : Vector3 := (theta / Real.sin theta) * (q - p * dot)
      let B ← u.basis
      pure (Ranged.finite (B.transpose.mulVec result_hat))

end Unit3

namespace Quaternion

/-- A unit quaternion: the four coefficients have squares summing to 1. -/
def IsUnitQuaternion (q : Quaternion) : Prop :=
  q.w * q.w + q.x * q.x + q.y * q.y + q.z * q.z = 1

end Quaternion

namespace QuaternionChart

/-- The function `QuaternionChart::retract(p, v)` over doubles.  With `theta = +inf` the
test `std::abs(theta) < 1e-10` fails and the angle-axis quaternion has the scalar part
`cos(theta / 2)`, a NaN. -/
def retractRanged (p : Quaternion) (v : Vector3) : Ranged Quaternion :=
  match v.normRanged with
  | none => Ranged.nonFinite
  | some theta =>
    if |theta| < 1e-10 then Ranged.finite p
    else Ranged.finite (p.mul (Quaternion.ofAngleAxis theta (v / theta)))

end QuaternionChart

end

/-! ## ExpressionFactor (ExpressionFactor.h)

The factor is generic in the assignment type `Values`, the measurement type `T`, the scalar
type `R` and the type `W` of noise models attached to linear factors. -/

/-- Variable key, an unsigned integer. -/
abbrev Key := Nat

/-- The gtsam dynamic `Vector`, called `VectorX` here because the name `Vector` is taken. -/
abbrev VectorX (R : Type) := List R

/-- The gtsam dynamic `Matrix`, called `MatrixX` here because the name `Matrix` is taken: its
shape, and its coefficients read by row and column.  Only coefficients inside the shape are
meaningful. -/
structure MatrixX (R : Type) where
  rows : Nat
  cols : Nat
  coeff : Nat → Nat → R

namespace MatrixX

/-- Eigen `col(j)` as a vector. -/
def col {R : Type} (M : MatrixX R) (j : Nat) : VectorX R :=
  (List.range M.rows).map fun r => M.coeff r j

end MatrixX

/-- A `std::map<Key, V>`: the entries in iteration order, which is strictly ascending in the
key. -/
structure StdMap (V : Type) where
  entries : List (Key × V)
  sorted : (entries.map Prod.fst).Pairwise (· < ·)

namespace StdMap

/-- The method `std::map::size()`. -/
def size {V : Type} (m : StdMap V) : Nat := m.entries.length

/-- The range `map | map_keys`. -/
def keys {V : Type} (m : StdMap V) : List Key := m.entries.map Prod.fst

/-- The range `map | map_values`. -/
def values {V : Type} (m : StdMap V) : List V := m.entries.map Prod.snd

end StdMap

/-- The type `JacobianMap`, a `std::map<Key, Matrix>`. -/
abbrev JacobianMap (R : Type) := StdMap (MatrixX R)

/-- Modelled from the spec: `Expression<T>` (Expression.h is not part of the sources).
`value(x)` returns the output value; `value(x, jacobians)` returns the same value and stores
`jacobians x` in the map it is given; `keys()` and `dimensions()` are the leaf keys and their
tangent dimensions. -/
structure Expression (Values T R : Type) where
  value : Values → T
  jacobians : Values → JacobianMap R
  keys : List Key
  dimensions : StdMap Nat

/-- Modelled from the spec: `VerticalBlockMatrix` (VerticalBlockMatrix.h is not part of the
sources): a single matrix holding the horizontally concatenated blocks, and the cumulative
column offsets of the blocks. -/
structure VerticalBlockMatrix (R : Type) where
  matrix_ : MatrixX R
  variableColOffsets_ : List Nat

namespace VerticalBlockMatrix

/-- Cumulative offsets `start, start + d0, start + d0 + d1, ...`. -/
def offsetsFrom (start : Nat) : List Nat → List Nat
  | [] => [start]
  | d :: ds => start :: offsetsFrom (start + d) ds

/-- Modelled from the spec: the offsets of the blocks, with one more block of width one when
`appendOneDimension` is set. -/
def fillOffsets (dims : List Nat) (appendOneDimension : Bool) : List Nat :=
  offsetsFrom 0 (if appendOneDimension then dims ++ [1] else dims)

/-- Modelled from the spec: the constructor `VerticalBlockMatrix(dims, height,
appendOneDimension)`; the matrix has the right size and its content `uninit` is whatever
the fresh storage holds. -/
def create {R : Type} (dims : List Nat) (height : Nat) (appendOneDimension : Bool)
    (uninit : Nat → Nat → R) : VerticalBlockMatrix R :=
  let offsets := fillOffsets dims appendOneDimension
  ⟨⟨height, offsets.getLastD 0, uninit⟩, offsets⟩

/-- First column of block `i`. -/
def offset {R : Type} (Ab : VerticalBlockMatrix R) (i : Nat) : Nat :=
  Ab.variableColOffsets_.getD i 0

/-- Modelled from the spec: reading `Ab(i)`, the columns from `offset i` up to
`offset (i + 1)`. -/
def block {R : Type} (Ab : VerticalBlockMatrix R) (i : Nat) : MatrixX R :=
  ⟨Ab.matrix_.rows, Ab.offset (i + 1) - Ab.offset i,
    fun r c => Ab.matrix_.coeff r (Ab.offset i + c)⟩

/-- Modelled from the spec: the assignment `Ab(i) = A`, which overwrites the coefficients of
block `i` with those of `A`. -/
def setBlock {R : Type} (Ab : VerticalBlockMatrix R) (i : Nat) (A : MatrixX R) :
    VerticalBlockMatrix R :=
  { Ab with
    matrix_ :=
      { Ab.matrix_ with
        coeff := fun r c =>
          if r < Ab.matrix_.rows ∧ Ab.offset i ≤ c ∧ c < Ab.offset (i + 1) then
            A.coeff r (c - Ab.offset i)
          else Ab.matrix_.coeff r c } }

/-- Modelled from the spec: the assignment `Ab(i).col(j) = b`. -/
def setBlockCol {R : Type} (Ab : VerticalBlockMatrix R) (i j : Nat) (b : VectorX R) :
    VerticalBlockMatrix R :=
  { Ab with
    matrix_ :=
      { Ab.matrix_ with
        coeff := fun r c =>
          if c = Ab.offset i + j then
            match b[r]? with
            | some v => v
            | none => Ab.matrix_.coeff r c
          else Ab.matrix_.coeff r c } }

end VerticalBlockMatrix

/-- Modelled from the spec: a hard-constraint noise model together with the weighting its
`unit()` designates. -/
structure Constrained (W : Type) where
  model : W
  unit : W

/-- Modelled from the spec: `SharedNoiseModel`, either of the `Constrained` kind or any
other model; this is what the `dynamic_pointer_cast` in `linearize` tells apart. -/
inductive SharedNoiseModel (W : Type) where
  | constrained (c : Constrained W)
  | other (w : W)

/-- Modelled from the spec: `JacobianFactor` as built by its constructors
`JacobianFactor(keys, Ab)` and `JacobianFactor(keys, Ab, model)`: the ordered keys, the
block matrix and the noise model when one is given. -/
structure JacobianFactor (R W : Type) where
  keys_ : List Key
  Ab_ : VerticalBlockMatrix R
  model_ : Option W

/-- The class `ExpressionFactor<T>`.  Besides the members `measurement_` and `expression_`
it carries what it inherits or uses: the noise model, the chart `localCoordinates` of the
measurement type and the activity predicate `active` of `NonlinearFactor`. -/
structure ExpressionFactor (Values T R W : Type) where
  noiseModel_ : SharedNoiseModel W
  measurement_ : T
  expression_ : Expression Values T R
  localCoordinates : T → T → VectorX R
  active : Values → Bool

namespace ExpressionFactor

variable {Values T R W : Type}

/-- The method `Factor::size()`: the number of keys, which the constructor takes from
`expression.keys()`. -/
def size (f : ExpressionFactor Values T R W) : Nat := f.expression_.keys.length

/-- Modelled from the spec: `move(jacobians, H)` stores the Jacobian block of the j-th key,
in ascending key order, in `H[j]`. -/
def move (jacobians : JacobianMap R) (H : List (MatrixX R)) : List (MatrixX R) :=
  H.enum.map fun jh =>
    match jacobians.entries[jh.1]? with
    | some term => term.2
    | none => jh.2

/-- The method `ExpressionFactor::unwhitenedError(x, H)`; `none` is the failed assertion
`H->size() == size()`. -/
def unwhitenedError (f : ExpressionFactor Values T R W) (x : Values)
    (H : Option (List (MatrixX R))) : Option (VectorX R × Option (List (MatrixX R))) :=
  match H with
  | some H =>
    if H.length = f.size then
      let jacobians := f.expression_.jacobians x
      let value := f.expression_.value x
      some (f.localCoordinates f.measurement_ value, some (move jacobians H))
    else
      none
  | none =>
    let value := f.expression_.value x
    some (f.localCoordinates f.measurement_ value, none)

/-- The loop of `linearize` over the Jacobian map: `Ab(i++) = Ai` for each term in turn. -/
def addTerms : List (Key × MatrixX R) → Nat → VerticalBlockMatrix R → VerticalBlockMatrix R
  | [], _, Ab => Ab
  | term :: rest, i, Ab => addTerms rest (i + 1) (Ab.setBlock i term.2)

/-- The method `ExpressionFactor::linearize(x)`; `none` is the null pointer.  The argument
`uninit` is the content of the freshly allocated block matrix. -/
def linearize [Neg R] (f : ExpressionFactor Values T R W) (uninit : Nat → Nat → R)
    (x : Values) : Option (JacobianFactor R W) :=
  if !f.active x then
    none
  else
    let terms := f.expression_.jacobians x
    let value := f.expression_.value x
    let b : VectorX R := (f.localCoordinates f.measurement_ value).map Neg.neg
    let map := f.expression_.dimensions
    let n := map.size
    let dims := map.values
    let Ab := VerticalBlockMatrix.create dims b.length true uninit
    let Ab := addTerms terms.entries 0 Ab
    let Ab := Ab.setBlockCol n 0 b
    match f.noiseModel_ with
    | SharedNoiseModel.constrained c => some ⟨map.keys, Ab, some c.unit⟩
    | SharedNoiseModel.other _ => some ⟨map.keys, Ab, none⟩

end ExpressionFactor

/-! ## A concrete factor

The factor measures the sum of two scalar leaves, keys 1 and 2, against the value 10. -/

/-- The 1×1 matrix with the single coefficient `a`. -/
def scalarMatrix (a : Int) : MatrixX Int := ⟨1, 1, fun _ _ => a⟩

/-- The expression `x 1 + x 2` over assignments `Key → Int`, with unit Jacobians. -/
def sumExpression : Expression (Key → Int) Int Int where
  value := fun x => x 1 + x 2
  jacobians := fun _ => ⟨[(1, scalarMatrix 1), (2, scalarMatrix 1)], by simp⟩
  keys := [1, 2]
  dimensions := ⟨[(1, 1), (2, 1)], by simp⟩

/-- The factor binding the measurement 10 to `sumExpression`; the chart of `Int` is
subtraction, the factor is always active and its noise model is not constrained. -/
def sumFactor : ExpressionFactor (Key → Int) Int Int Unit where
  noiseModel_ := SharedNoiseModel.other ()
  measurement_ := 10
  expression_ := sumExpression
  localCoordinates := fun a b => [b - a]
  active := fun _ => true

/-- The assignment with 3 at key 1 and 4 at every other key. -/
def sumValues : Key → Int := fun k => if k = 1 then 3 else 4

/-- The factor `sumFactor` with a noise model of the Constrained kind.  Noise models are
named by strings here: the model of the factor is "constrained" and its `unit()` is the
different model "unit". -/
def constrainedSumFactor : ExpressionFactor (Key → Int) Int Int String where
  noiseModel_ := SharedNoiseModel.constrained ⟨"constrained", "unit"⟩
  measurement_ := 10
  expression_ := sumExpression
  localCoordinates := fun a b => [b - a]
  active := fun _ => true

/-! ## Theorems -/

namespace Point3

@[simp]
theorem add_x (p q : Point3) : (p + q).x = p.x + q.x := rfl
@[simp]
theorem add_y (p q : Point3) : (p + q).y = p.y + q.y := rfl
@[simp]
theorem add_z (p q : Point3) : (p + q).z = p.z + q.z := rfl
@[simp]
theorem neg_x (p : Point3) : (-p).x = -p.x := rfl
@[simp]
theorem neg_y (p : Point3) : (-p).y = -p.y := rfl
@[simp]
theorem neg_z (p : Point3) : (-p).z = -p.z := rfl
@[simp]
theorem smul_x (s : ℝ) (p : Point3) : (s * p).x = s * p.x := rfl
@[simp]
theorem smul_y (s : ℝ) (p : Point3) : (s * p).y = s * p.y := rfl
@[simp]
theorem smul_z (s : ℝ) (p : Point3) : (s * p).z = s * p.z := rfl
@[simp]
theorem div_x (p : Point3) (s : ℝ) : (p / s).x = p.x / s := rfl
@[simp]
theorem div_y (p : Point3) (s : ℝ) : (p / s).y = p.y / s := rfl
@[simp]
theorem div_z (p : Point3) (s : ℝ) : (p / s).z = p.z / s := rfl

end Point3

namespace Vector2

theorem norm_eq_zero_iff (v : Vector2) : v.norm = 0 ↔ v = ⟨0, 0⟩ := by
  unfold Vector2.norm
  rw [Real.sqrt_eq_zero (add_nonneg (mul_self_nonneg _) (mul_self_nonneg _)), Vector2.ext_iff]
  constructor
  · intro h
    have hx : v.x * v.x = 0 := by nlinarith [mul_self_nonneg v.x, mul_self_nonneg v.y]
    have hy : v.y * v.y = 0 := by nlinarith [mul_self_nonneg v.x, mul_self_nonneg v.y]
    exact ⟨mul_self_eq_zero.mp hx, mul_self_eq_zero.mp hy⟩
  · rintro ⟨h1, h2⟩
    simp only at h1 h2
    rw [h1, h2]; ring

end Vector2

/-! ### The range of a double -/

theorem underflowBound_pos : 0 < underflowBound := by
  unfold underflowBound
  positivity

/-- Three squares that all round to zero sum to less than `(1e-150)²`. -/
theorem underflowBound_lt : 3 * underflowBound < 1e-150 * 1e-150 := by
  unfold underflowBound
  norm_num

/-- The square of `1e150` does not round to infinity. -/
theorem overflowBound_gt : (1e150 : ℝ) * 1e150 < overflowBound := by
  unfold overflowBound
  norm_num

namespace Point3

theorem norm_mul_self (p : Point3) : p.norm * p.norm = p.x * p.x + p.y * p.y + p.z * p.z :=
  Real.mul_self_sqrt (add_nonneg (add_nonneg (mul_self_nonneg _) (mul_self_nonneg _))
    (mul_self_nonneg _))

theorem norm_nonneg (p : Point3) : 0 ≤ p.norm := Real.sqrt_nonneg _

/-- A norm of at most `1e150` does not overflow. -/
theorem normRanged_of_le (p : Point3) (hhi : p.norm ≤ 1e150) :
    p.normRanged = some 0 ∨ p.normRanged = some p.norm := by
  have hS := p.norm_mul_self
  have h0 := p.norm_nonneg
  have h1 : ¬ overflowBound ≤ p.x * p.x + p.y * p.y + p.z * p.z := by
    rw [← hS]
    have := overflowBound_gt
    nlinarith
  unfold normRanged
  rw [if_neg h1]
  by_cases h2 : p.x * p.x ≤ underflowBound ∧ p.y * p.y ≤ underflowBound ∧
      p.z * p.z ≤ underflowBound
  · left; rw [if_pos h2]
  · right; rw [if_neg h2]

/-- A norm of at least `1e-150` is not flushed to zero. -/
theorem normRanged_of_ge (p : Point3) (hlo : 1e-150 ≤ p.norm) :
    p.normRanged = none ∨ p.normRanged = some p.norm := by
  have hS := p.norm_mul_self
  have h2 : ¬ (p.x * p.x ≤ underflowBound ∧ p.y * p.y ≤ underflowBound ∧
      p.z * p.z ≤ underflowBound) := by
    rintro ⟨hx, hy, hz⟩
    have := underflowBound_lt
    nlinarith
  unfold normRanged
  by_cases h1 : overflowBound ≤ p.x * p.x + p.y * p.y + p.z * p.z
  · left; rw [if_pos h1]
  · right; rw [if_neg h1, if_neg h2]

/-- Between `1e-150` and `1e150` the norm over doubles is the exact norm. -/
theorem normRanged_eq_norm (p : Point3) (hlo : 1e-150 ≤ p.norm) (hhi : p.norm ≤ 1e150) :
    p.normRanged = some p.norm := by
  rcases p.normRanged_of_ge hlo with h | h
  · rcases p.normRanged_of_le hhi with h' | h' <;> rw [h] at h' <;> simp at h'
  · exact h

/-- The sum of squares of `(1e200, 0, 0)` rounds to infinity. -/
theorem normRanged_axis_huge : (Point3.mk 1e200 0 0).normRanged = none := by
  simp only [Point3.normRanged]
  rw [if_pos (by unfold overflowBound; norm_num)]

/-- The squares of `(1e-170, 0, 0)` all round to zero. -/
theorem normRanged_axis_tiny : (Point3.mk 1e-170 0 0).normRanged = some 0 := by
  simp only [Point3.normRanged]
  rw [if_neg (by unfold overflowBound; norm_num), if_pos (by unfold underflowBound; norm_num)]

theorem norm_x_axis (a : ℝ) (ha : 0 ≤ a) : (Point3.mk a 0 0).norm = a := by
  simp only [Point3.norm, mul_zero, add_zero]
  exact Real.sqrt_mul_self ha

end Point3

namespace Vector2

theorem normRanged_zero : (Vector2.mk 0 0).normRanged = some 0 := by
  have h1 : ¬ overflowBound ≤ (0 : ℝ) * 0 + 0 * 0 := by
    unfold overflowBound; norm_num
  have h2 : (0 : ℝ) * 0 ≤ underflowBound := by
    have := underflowBound_pos; simp; linarith
  simp only [normRanged]
  rw [if_neg h1, if_pos ⟨h2, h2⟩]

theorem norm_along_x (a : ℝ) (ha : 0 ≤ a) : (Vector2.mk a 0).norm = a := by
  simp only [Vector2.norm, mul_zero, add_zero]
  exact Real.sqrt_mul_self ha

end Vector2

namespace Unit3

theorem norm_eq_one_iff (p : Point3) : p.norm = 1 ↔ p.x * p.x + p.y * p.y + p.z * p.z = 1 := by
  unfold Point3.norm
  exact Real.sqrt_eq_one

theorem basisAxis_cases (n : Point3) :
    (basisAxis n = some ⟨1, 0, 0⟩ ∧ |n.x| ≤ |n.y| ∧ |n.x| ≤ |n.z|) ∨
    (basisAxis n = some ⟨0, 1, 0⟩ ∧ |n.y| ≤ |n.x| ∧ |n.y| ≤ |n.z|) ∨
    (basisAxis n = some ⟨0, 0, 1⟩ ∧ |n.z| ≤ |n.x| ∧ |n.z| ≤ |n.y|) := by
  unfold basisAxis
  by_cases h1 : |n.x| ≤ |n.y| ∧ |n.x| ≤ |n.z|
  · left; simp [h1]
  · by_cases h2 : |n.y| ≤ |n.x| ∧ |n.y| ≤ |n.z|
    · right; left; simp only [h1, h2]; simp
    · right; right
      have h3 : |n.z| ≤ |n.x| ∧ |n.z| ≤ |n.y| := by
        rw [not_and_or, not_le, not_le] at h1 h2
        constructor
        · rcases h1 with h | h
          · rcases h2 with h' | h'
            · exact absurd (lt_trans h h') (lt_irrefl _)
            · exact le_trans h'.le h.le
          · exact h.le
        · rcases h2 with h | h
          · rcases h1 with h' | h'
            · exact absurd (lt_trans h h') (lt_irrefl _)
            · exact le_trans h'.le h.le
          · exact h.le
      simp only [h1, h2, h3]; simp

theorem basisFromAxis_frame (n a : Point3) (hn : n.x * n.x + n.y * n.y + n.z * n.z = 1)
    (hS : 0 < (n.cross a).x * (n.cross a).x + (n.cross a).y * (n.cross a).y
      + (n.cross a).z * (n.cross a).z) : TangentFrame n (basisFromAxis n a) := by
  have hs0 : 0 < (n.cross a).norm := Real.sqrt_pos.mpr hS
  have hss : (n.cross a).norm * (n.cross a).norm = (n.cross a).x * (n.cross a).x
      + (n.cross a).y * (n.cross a).y + (n.cross a).z * (n.cross a).z :=
    Real.mul_self_sqrt hS.le
  simp only [basisFromAxis, Point3.normalize]
  generalize (n.cross a).norm = s at hs0 hss
  have hne : s ≠ 0 := hs0.ne'
  simp only [Point3.cross] at hss
  constructor <;> simp only [Point3.cross, Point3.div_x, Point3.div_y, Point3.div_z] <;> field_simp
  · linear_combination -hss
  · linear_combination (-(n.x * n.x + n.y * n.y + n.z * n.z)) * hss + (s * s) * hn
  · ring
  · ring
  · ring


theorem basisAxis_cross_pos (n : Point3) (hn : n.x * n.x + n.y * n.y + n.z * n.z = 1) :
    ∃ a, basisAxis n = some a ∧
      0 < (n.cross a).x * (n.cross a).x + (n.cross a).y * (n.cross a).y
        + (n.cross a).z * (n.cross a).z := by
  rcases basisAxis_cases n with ⟨h, h1, h2⟩ | ⟨h, h1, h2⟩ | ⟨h, h1, h2⟩ <;>
    refine ⟨_, h, ?_⟩ <;>
    rw [← sq_le_sq] at h1 h2 <;>
    simp only [Point3.cross] <;>
    nlinarith

theorem basis_frame (u : Unit3) (hu : u.IsUnitDirection) :
    ∃ B, u.basis = some B ∧ TangentFrame u.p_ B := by
  have hn := (norm_eq_one_iff u.p_).mp hu
  obtain ⟨a, ha, hS⟩ := basisAxis_cross_pos u.p_ hn
  exact ⟨basisFromAxis u.p_ a, by simp [basis, ha], basisFromAxis_frame u.p_ a hn hS⟩

theorem TangentFrame.rows {n : Point3} {B : Matrix32}
    (hn : n.x * n.x + n.y * n.y + n.z * n.z = 1) (hF : TangentFrame n B) :
    (n.x * n.x + B.m00 * B.m00 + B.m01 * B.m01 = 1 ∧
      n.y * n.y + B.m10 * B.m10 + B.m11 * B.m11 = 1 ∧
      n.z * n.z + B.m20 * B.m20 + B.m21 * B.m21 = 1) ∧
    (n.x * n.y + B.m00 * B.m10 + B.m01 * B.m11 = 0 ∧
      n.x * n.z + B.m00 * B.m20 + B.m01 * B.m21 = 0 ∧
      n.y * n.z + B.m10 * B.m20 + B.m11 * B.m21 = 0) := by
  obtain ⟨b1b1, b2b2, b1b2, nb1, nb2⟩ := hF
  have h : (!![n.x, n.y, n.z; B.m00, B.m10, B.m20; B.m01, B.m11, B.m21] :
      Matrix (Fin 3) (Fin 3) ℝ)
      * !![n.x, B.m00, B.m01; n.y, B.m10, B.m11; n.z, B.m20, B.m21] = 1 := by
    ext i j
    fin_cases i <;> fin_cases j <;>
      simp [Matrix.mul_apply, Fin.sum_univ_three] <;> linarith
  have h2 := Matrix.mul_eq_one_comm.mp h
  have e := fun i j => congrFun (congrFun h2 i) j
  have e00 := e 0 0
  have e11 := e 1 1
  have e22 := e 2 2
  have e01 := e 0 1
  have e02 := e 0 2
  have e12 := e 1 2
  simp [Matrix.mul_apply, Fin.sum_univ_three] at e00 e11 e22 e01 e02 e12
  exact ⟨⟨e00, e11, e22⟩, e01, e02, e12⟩

/-- Parseval: the tangent coordinates of `q` carry its squared length minus the part along `n`. -/
theorem TangentFrame.parseval {n : Point3} {B : Matrix32}
    (hn : n.x * n.x + n.y * n.y + n.z * n.z = 1) (hF : TangentFrame n B) (q : Point3) :
    (B.transpose.mulVec q).x * (B.transpose.mulVec q).x +
      (B.transpose.mulVec q).y * (B.transpose.mulVec q).y =
      (q.x * q.x + q.y * q.y + q.z * q.z) - (n.dot q) * (n.dot q) := by
  obtain ⟨⟨r0, r1, r2⟩, r01, r02, r12⟩ := hF.rows hn
  simp only [Matrix32.transpose, Matrix23.mulVec, Point3.dot]
  linear_combination (q.x * q.x) * r0 + (q.y * q.y) * r1 + (q.z * q.z) * r2
    + (2 * q.x * q.y) * r01 + (2 * q.x * q.z) * r02 + (2 * q.y * q.z) * r12

theorem TangentFrame.xi_hat_norm {n : Point3} {B : Matrix32} (hF : TangentFrame n B)
    (v : Vector2) : (v.x * B.col 0 + v.y * B.col 1 : Point3).norm = v.norm := by
  obtain ⟨b1b1, b2b2, b1b2, _, _⟩ := hF
  unfold Point3.norm Vector2.norm
  congr 1
  simp only [Matrix32.col, Point3.add_x, Point3.add_y, Point3.add_z, Point3.smul_x,
    Point3.smul_y, Point3.smul_z, if_true, one_ne_zero, if_false]
  linear_combination (v.x * v.x) * b1b1 + (v.y * v.y) * b2b2 + (2 * v.x * v.y) * b1b2

theorem retract_of_frame (u : Unit3) (v : Vector2) {B : Matrix32} (hB : u.basis = some B)
    (hF : TangentFrame u.p_ B) :
    u.retract v = some (if v.norm = 0 then u else
      ⟨Real.cos v.norm * u.p_ + Real.sin v.norm * ((v.x * B.col 0 + v.y * B.col 1) / v.norm)⟩) := by
  simp only [retract, hB, Option.bind_eq_bind, Option.some_bind, hF.xi_hat_norm, point3,
    Point3.vector, Option.pure_def, ofVector3]
  by_cases h : v.norm = 0
  · simp [h]
  · simp [h]

theorem localCoordinates_of_dot_gt (u y : Unit3) (h : u.p_.dot y.p_ > 1 - 1e-16) :
    u.localCoordinates y = some ⟨0, 0⟩ := by
  simp only [localCoordinates, Point3.vector]
  rw [if_pos h]

theorem localCoordinates_of_frame (u y : Unit3) {B : Matrix32} (hB : u.basis = some B)
    (h1 : ¬ u.p_.dot y.p_ > 1 - 1e-16) (h2 : ¬ u.p_.dot y.p_ < -1 + 1e-16) :
    u.localCoordinates y = some (B.transpose.mulVec
      ((Real.arccos (u.p_.dot y.p_) / Real.sin (Real.arccos (u.p_.dot y.p_))) *
        (y.p_ - u.p_ * (u.p_.dot y.p_)))) := by
  simp only [localCoordinates, Point3.vector]
  rw [if_neg h1, if_neg h2]
  simp [hB]

/-- C3: for every unit direction `p`, `basis()` returns a matrix whose two columns `b1`, `b2`
each have norm 1, satisfy `b1 · b2 = 0`, and satisfy `p · b1 = 0` and `p · b2 = 0`. -/
theorem basis_orthonormal (p : Unit3) (hp : p.IsUnitDirection) :
    ∃ B, p.basis = some B ∧ (B.col 0).norm = 1 ∧ (B.col 1).norm = 1 ∧
      (B.col 0).dot (B.col 1) = 0 ∧ p.p_.dot (B.col 0) = 0 ∧ p.p_.dot (B.col 1) = 0 := by
  obtain ⟨B, hB, hF⟩ := basis_frame p hp
  refine ⟨B, hB, ?_, ?_, ?_, ?_, ?_⟩
  · rw [norm_eq_one_iff]; simpa [Matrix32.col] using hF.b1b1
  · rw [norm_eq_one_iff]; simpa [Matrix32.col] using hF.b2b2
  · simpa [Matrix32.col, Point3.dot] using hF.b1b2
  · simpa [Matrix32.col, Point3.dot] using hF.nb1
  · simpa [Matrix32.col, Point3.dot] using hF.nb2

/-- C3 at `p = (0,0,1)`. -/
theorem basis_orthonormal_witness :
    (Unit3.mk ⟨0, 0, 1⟩).IsUnitDirection ∧
    ∃ B, (Unit3.mk ⟨0, 0, 1⟩).basis = some B ∧ (B.col 0).norm = 1 ∧ (B.col 1).norm = 1 ∧
      (B.col 0).dot (B.col 1) = 0 ∧ (Unit3.mk ⟨0, 0, 1⟩).p_.dot (B.col 0) = 0 ∧
      (Unit3.mk ⟨0, 0, 1⟩).p_.dot (B.col 1) = 0 :=
  ⟨by simp [IsUnitDirection, Point3.norm],
   basis_orthonormal ⟨⟨0, 0, 1⟩⟩ (by simp [IsUnitDirection, Point3.norm])⟩

/-- The point reached by a nonzero tangent vector `v` has dot product `cos ‖v‖` with the
base point. -/
theorem retract_dot {n : Point3} {B : Matrix32} (hn : n.x * n.x + n.y * n.y + n.z * n.z = 1)
    (hF : TangentFrame n B) (v : Vector2) (hv : v.norm ≠ 0) :
    n.dot (Real.cos v.norm * n + Real.sin v.norm * ((v.x * B.col 0 + v.y * B.col 1) / v.norm))
      = Real.cos v.norm := by
  obtain ⟨_, _, _, nb1, nb2⟩ := hF
  simp only [Point3.dot, Matrix32.col, Point3.add_x, Point3.add_y, Point3.add_z, Point3.smul_x,
    Point3.smul_y, Point3.smul_z, Point3.div_x, Point3.div_y, Point3.div_z, if_true,
    one_ne_zero, if_false]
  field_simp
  linear_combination (Real.cos v.norm * v.norm) * hn + (Real.sin v.norm * v.x) * nb1
    + (Real.sin v.norm * v.y) * nb2

theorem basis_isSome (u : Unit3) : ∃ B, u.basis = some B := by
  rcases basisAxis_cases u.p_ with ⟨h, _⟩ | ⟨h, _⟩ | ⟨h, _⟩ <;>
    exact ⟨basisFromAxis u.p_ _, by rw [basis, h]; rfl⟩

/-- Retracting by the zero vector returns the base point, for any stored point. -/
theorem retract_zero_vector (p : Unit3) : p.retract ⟨0, 0⟩ = some p := by
  obtain ⟨B, hB⟩ := basis_isSome p
  simp [retract, hB, Point3.norm, Vector2.norm, point3, ofVector3]

/-- C4: retracting by the zero tangent vector is the identity for both charts: for every
unit direction `p`, `retract(p, (0,0))` returns `p`, and for every quaternion `q`,
`QuaternionChart::retract(q, (0,0,0))` is `q`. -/
theorem retract_zero (p : Unit3) (_hp : p.IsUnitDirection) (q : Quaternion) :
    p.retract ⟨0, 0⟩ = some p ∧ QuaternionChart.retract q ⟨0, 0, 0⟩ = q := by
  constructor
  · exact retract_zero_vector p
  · simp only [QuaternionChart.retract, Point3.norm, mul_zero, add_zero, Real.sqrt_zero, abs_zero]
    rw [if_pos (by norm_num)]

/-- C4 at `p = (0,0,1)` and the quaternion `(1/2, 1/2, 1/2, 1/2)`. -/
theorem retract_zero_witness :
    (Unit3.mk ⟨0, 0, 1⟩).IsUnitDirection ∧
    (Unit3.mk ⟨0, 0, 1⟩).retract ⟨0, 0⟩ = some ⟨⟨0, 0, 1⟩⟩ ∧
    QuaternionChart.retract ⟨1 / 2, 1 / 2, 1 / 2, 1 / 2⟩ ⟨0, 0, 0⟩
      = ⟨1 / 2, 1 / 2, 1 / 2, 1 / 2⟩ :=
  ⟨by simp [IsUnitDirection, Point3.norm],
   retract_zero ⟨⟨0, 0, 1⟩⟩ (by simp [IsUnitDirection, Point3.norm])
     ⟨1 / 2, 1 / 2, 1 / 2, 1 / 2⟩⟩

theorem distance_of_frame (u q : Unit3) (wantH : Bool) {B Bq : Matrix32}
    (hB : u.basis = some B) (hBq : q.basis = some Bq) :
    (u.distance q wantH).map Prod.fst = some (B.transpose.mulVec q.p_).norm := by
  cases wantH <;> simp [distance, error, hB, hBq, Point3.vector]

theorem distance_eq (u q : Unit3) (hu : u.IsUnitDirection) (hq : q.IsUnitDirection)
    (wantH : Bool) :
    (u.distance q wantH).map Prod.fst
      = some (Real.sqrt (1 - (u.p_.dot q.p_) * (u.p_.dot q.p_))) := by
  obtain ⟨B, hB, hF⟩ := basis_frame u hu
  obtain ⟨Bq, hBq, _⟩ := basis_frame q hq
  have hn := (norm_eq_one_iff u.p_).mp hu
  have hm := (norm_eq_one_iff q.p_).mp hq
  rw [distance_of_frame u q wantH hB hBq, Vector2.norm, hF.parseval hn, hm]

theorem dot_comm (p q : Point3) : p.dot q = q.dot p := by
  simp only [Point3.dot]; ring

/-- C8: for all unit directions `p` and `q`, `distance` from `p` to `q` and `distance` from
`q` to `p` both return, and return the same number, whether or not a derivative is
requested on either side. -/
theorem distance_symm (p q : Unit3) (hp : p.IsUnitDirection) (hq : q.IsUnitDirection)
    (wantH wantH' : Bool) :
    ∃ d, (p.distance q wantH).map Prod.fst = some d ∧
      (q.distance p wantH').map Prod.fst = some d :=
  ⟨_, distance_eq p q hp hq wantH, by rw [distance_eq q p hq hp wantH', dot_comm]⟩

/-- C9: for every unit direction `p`, `localCoordinates(p, p)` is the zero 2-vector and
`distance(p, p)` is 0. -/
theorem coincidence (p : Unit3) (hp : p.IsUnitDirection) (wantH : Bool) :
    p.localCoordinates p = some ⟨0, 0⟩ ∧ (p.distance p wantH).map Prod.fst = some 0 := by
  have hd : p.p_.dot p.p_ = 1 := (norm_eq_one_iff p.p_).mp hp
  constructor
  · apply localCoordinates_of_dot_gt
    rw [hd]; norm_num
  · rw [distance_eq p p hp hp wantH, hd]; simp

theorem retract_unit (p : Unit3) (hp : p.IsUnitDirection) (v : Vector2) :
    ∃ q, p.retract v = some q ∧ q.IsUnitDirection := by
  obtain ⟨B, hB, hF⟩ := basis_frame p hp
  have hn := (norm_eq_one_iff p.p_).mp hp
  refine ⟨_, retract_of_frame p v hB hF, ?_⟩
  by_cases h0 : v.norm = 0
  · rw [if_pos h0]; exact hp
  · rw [if_neg h0, IsUnitDirection, norm_eq_one_iff]
    have hθθ : v.norm * v.norm = v.x * v.x + v.y * v.y :=
      Real.mul_self_sqrt (add_nonneg (mul_self_nonneg _) (mul_self_nonneg _))
    have hcs := Real.cos_sq_add_sin_sq v.norm
    obtain ⟨b1b1, b2b2, b1b2, nb1, nb2⟩ := hF
    generalize v.norm = θ at h0 hθθ hcs ⊢
    simp only [Matrix32.col, Point3.add_x, Point3.add_y, Point3.add_z, Point3.smul_x,
      Point3.smul_y, Point3.smul_z, Point3.div_x, Point3.div_y, Point3.div_z, if_true,
      one_ne_zero, if_false]
    field_simp
    linear_combination (Real.cos θ ^ 2 * θ ^ 2) * hn
      + (2 * Real.cos θ * Real.sin θ * θ * v.x) * nb1
      + (2 * Real.cos θ * Real.sin θ * θ * v.y) * nb2
      + (Real.sin θ ^ 2 * v.x ^ 2) * b1b1 + (2 * Real.sin θ ^ 2 * v.x * v.y) * b1b2
      + (Real.sin θ ^ 2 * v.y ^ 2) * b2b2 - (Real.sin θ ^ 2) * hθθ + (θ ^ 2) * hcs

theorem FromPoint3_unit (x : Point3) (hx : x ≠ ⟨0, 0, 0⟩) : (FromPoint3 x).IsUnitDirection := by
  have hS : 0 < x.x * x.x + x.y * x.y + x.z * x.z := by
    rcases lt_or_eq_of_le (add_nonneg (add_nonneg (mul_self_nonneg x.x) (mul_self_nonneg x.y))
      (mul_self_nonneg x.z)) with h | h
    · exact h
    · exfalso
      apply hx
      have hxx : x.x * x.x = 0 := by
        nlinarith [mul_self_nonneg x.x, mul_self_nonneg x.y, mul_self_nonneg x.z]
      have hyy : x.y * x.y = 0 := by
        nlinarith [mul_self_nonneg x.x, mul_self_nonneg x.y, mul_self_nonneg x.z]
      have hzz : x.z * x.z = 0 := by
        nlinarith [mul_self_nonneg x.x, mul_self_nonneg x.y, mul_self_nonneg x.z]
      ext
      · exact mul_self_eq_zero.mp hxx
      · exact mul_self_eq_zero.mp hyy
      · exact mul_self_eq_zero.mp hzz
  have hs0 : 0 < x.norm := Real.sqrt_pos.mpr hS
  have hss : x.norm * x.norm = x.x * x.x + x.y * x.y + x.z * x.z := Real.mul_self_sqrt hS.le
  rw [IsUnitDirection, norm_eq_one_iff]
  simp only [FromPoint3, Point3.normalize, Point3.div_x, Point3.div_y, Point3.div_z]
  generalize x.norm = s at hs0 hss
  have hne : s ≠ 0 := hs0.ne'
  field_simp
  linear_combination -hss

/-- C8 at `p = (0,0,1)`, `q = (1,0,0)`. -/
theorem distance_symm_witness :
    (Unit3.mk ⟨0, 0, 1⟩).IsUnitDirection ∧ (Unit3.mk ⟨1, 0, 0⟩).IsUnitDirection ∧
    ∃ d, ((Unit3.mk ⟨0, 0, 1⟩).distance ⟨⟨1, 0, 0⟩⟩ false).map Prod.fst = some d ∧
      ((Unit3.mk ⟨1, 0, 0⟩).distance ⟨⟨0, 0, 1⟩⟩ true).map Prod.fst = some d :=
  ⟨by simp [IsUnitDirection, Point3.norm], by simp [IsUnitDirection, Point3.norm],
   distance_symm ⟨⟨0, 0, 1⟩⟩ ⟨⟨1, 0, 0⟩⟩ (by simp [IsUnitDirection, Point3.norm])
     (by simp [IsUnitDirection, Point3.norm]) false true⟩

/-- C9 at `p = (0,0,1)`. -/
theorem coincidence_witness :
    (Unit3.mk ⟨0, 0, 1⟩).IsUnitDirection ∧
    (Unit3.mk ⟨0, 0, 1⟩).localCoordinates ⟨⟨0, 0, 1⟩⟩ = some ⟨0, 0⟩ ∧
    ((Unit3.mk ⟨0, 0, 1⟩).distance ⟨⟨0, 0, 1⟩⟩ true).map Prod.fst = some 0 :=
  ⟨by simp [IsUnitDirection, Point3.norm],
   coincidence ⟨⟨0, 0, 1⟩⟩ (by simp [IsUnitDirection, Point3.norm]) true⟩

theorem basisAxis_eq_ite (n : Point3) :
    basisAxis n = some
      (if |n.x| = min |n.x| (min |n.y| |n.z|) then ⟨1, 0, 0⟩
       else if |n.y| = min |n.x| (min |n.y| |n.z|) then ⟨0, 1, 0⟩
       else ⟨0, 0, 1⟩) := by
  have hx : |n.x| = min |n.x| (min |n.y| |n.z|) ↔ |n.x| ≤ |n.y| ∧ |n.x| ≤ |n.z| := by
    rw [eq_comm, min_eq_left_iff, le_min_iff]
  have hy : |n.y| = min |n.x| (min |n.y| |n.z|) ↔ |n.y| ≤ |n.x| ∧ |n.y| ≤ |n.z| := by
    constructor
    · intro h
      have h1 : |n.y| ≤ |n.x| := h ▸ min_le_left _ _
      have h2 : |n.y| ≤ |n.z| := h ▸ (le_trans (min_le_right _ _) (min_le_right _ _))
      exact ⟨h1, h2⟩
    · rintro ⟨h1, h2⟩
      rw [min_eq_left h2, min_eq_right h1]
  rcases basisAxis_cases n with ⟨h, h1, h2⟩ | ⟨h, h1, h2⟩ | ⟨h, h1, h2⟩
  · rw [h, if_pos (hx.mpr ⟨h1, h2⟩)]
  · by_cases hxx : |n.x| = min |n.x| (min |n.y| |n.z|)
    · have := hx.mp hxx
      rw [if_pos hxx]
      simp only [basisAxis, this, and_self, if_true]
    · rw [h, if_neg hxx, if_pos (hy.mpr ⟨h1, h2⟩)]
  · by_cases hxx : |n.x| = min |n.x| (min |n.y| |n.z|)
    · have := hx.mp hxx
      rw [if_pos hxx]
      simp only [basisAxis, this, and_self, if_true]
    · by_cases hyy : |n.y| = min |n.x| (min |n.y| |n.z|)
      · have h3 := hy.mp hyy
        have h4 := hx.not.mp hxx
        rw [if_neg hxx, if_pos hyy]
        simp only [basisAxis, h4, h3, and_self, if_true, if_false]
      · rw [h, if_neg hxx, if_neg hyy]

theorem basis_unitZ : (Unit3.mk ⟨0, 0, 1⟩).basis = some ⟨0, -1, 1, 0, 0, 0⟩ := by
  simp [basis, basisAxis, basisFromAxis, Point3.cross, Point3.normalize, Point3.norm]

/-- C11: for every point `n` the axis selection of `basis()` returns an axis and never reaches
the `assert(false)` branch; the axis is `e_i` for the smallest index `i` (x before y before
z) with `|n_i| = min(|n_x|, |n_y|, |n_z|)`.  For `n = (0,0,1)` the axis is `(1,0,0)` and
`basis()` has the columns `b1 = (0,1,0)` and `b2 = (-1,0,0)`. -/
theorem basis_axis_selection (n : Point3) :
    basisAxis n = some
      (if |n.x| = min |n.x| (min |n.y| |n.z|) then ⟨1, 0, 0⟩
       else if |n.y| = min |n.x| (min |n.y| |n.z|) then ⟨0, 1, 0⟩
       else ⟨0, 0, 1⟩) ∧
    basisAxis n ≠ none ∧
    basisAxis ⟨0, 0, 1⟩ = some ⟨1, 0, 0⟩ ∧
    (Unit3.mk ⟨0, 0, 1⟩).basis = some ⟨0, -1, 1, 0, 0, 0⟩ ∧
    (Matrix32.mk 0 (-1) 1 0 0 0).col 0 = ⟨0, 1, 0⟩ ∧
    (Matrix32.mk 0 (-1) 1 0 0 0).col 1 = ⟨-1, 0, 0⟩ := by
  refine ⟨basisAxis_eq_ite n, ?_, ?_, basis_unitZ, ?_, ?_⟩
  · rw [basisAxis_eq_ite]; simp
  · simp [basisAxis]
  · simp [Matrix32.col]
  · simp [Matrix32.col]

theorem unitZ_isUnitDirection : (Unit3.mk ⟨0, 0, 1⟩).IsUnitDirection := by
  simp [IsUnitDirection, Point3.norm]

theorem norm_tenth : (Vector2.mk 0 0.1).norm = 0.1 := by
  simp only [Vector2.norm, mul_zero, zero_add]
  exact Real.sqrt_mul_self (by norm_num)

theorem localCoordinates_of_dot_lt (u y : Unit3) (h : u.p_.dot y.p_ < -1 + 1e-16) :
    u.localCoordinates y = some ⟨Real.pi, 0⟩ := by
  simp only [localCoordinates, Point3.vector]
  rw [if_neg (by norm_num at h ⊢; linarith), if_pos h]

theorem localCoordinates_isSome (p y : Unit3) : ∃ v, p.localCoordinates y = some v := by
  obtain ⟨B, hB⟩ := basis_isSome p
  by_cases h1 : p.p_.dot y.p_ > 1 - 1e-16
  · exact ⟨_, localCoordinates_of_dot_gt p y h1⟩
  · by_cases h2 : p.p_.dot y.p_ < -1 + 1e-16
    · exact ⟨_, localCoordinates_of_dot_lt p y h2⟩
    · exact ⟨_, localCoordinates_of_frame p y hB h1 h2⟩

/-- The 2D error computed inside `distance`, whose norm is the divisor of the derivative:
it has norm `√(1 - (p · q)²)`. -/
theorem error_norm_eq (u q : Unit3) (hu : u.IsUnitDirection) (hq : q.IsUnitDirection) :
    ∃ xi M, u.error q true = some (xi, some M) ∧
      xi.norm = Real.sqrt (1 - (u.p_.dot q.p_) * (u.p_.dot q.p_)) := by
  obtain ⟨B, hB, hF⟩ := basis_frame u hu
  obtain ⟨Bq, hBq, _⟩ := basis_frame q hq
  have hn := (norm_eq_one_iff u.p_).mp hu
  have hm := (norm_eq_one_iff q.p_).mp hq
  refine ⟨B.transpose.mulVec q.p_, B.transpose.mul32 Bq, ?_, ?_⟩
  · simp [error, hB, hBq, Point3.vector]
  · rw [Vector2.norm, hF.parseval hn, hm]

/-- C15, evaluated on the code: `p = (0,0,1)` and `-p` are unit directions, and both for
`q = p` and for `q = -p` the 2D error computed by `distance(q, H)` has norm 0.  That norm is
`theta`, the divisor in `(xiᵀ / theta) · H_`, and it is also the distance returned. -/
theorem distance_divisor_zero :
    (Unit3.mk ⟨0, 0, 1⟩).IsUnitDirection ∧ (Unit3.mk ⟨0, 0, -1⟩).IsUnitDirection ∧
    (∃ xi M, (Unit3.mk ⟨0, 0, 1⟩).error ⟨⟨0, 0, 1⟩⟩ true = some (xi, some M) ∧ xi.norm = 0) ∧
    (∃ xi M, (Unit3.mk ⟨0, 0, 1⟩).error ⟨⟨0, 0, -1⟩⟩ true = some (xi, some M) ∧ xi.norm = 0) ∧
    ((Unit3.mk ⟨0, 0, 1⟩).distance ⟨⟨0, 0, 1⟩⟩ true).map Prod.fst = some 0 ∧
    ((Unit3.mk ⟨0, 0, 1⟩).distance ⟨⟨0, 0, -1⟩⟩ true).map Prod.fst = some 0 := by
  have hu := unitZ_isUnitDirection
  have hu' : (Unit3.mk ⟨0, 0, -1⟩).IsUnitDirection := by simp [IsUnitDirection, Point3.norm]
  refine ⟨hu, hu', ?_, ?_, ?_, ?_⟩
  · obtain ⟨xi, M, h, hx⟩ := error_norm_eq _ _ hu hu
    exact ⟨xi, M, h, by rw [hx]; simp [Point3.dot]⟩
  · obtain ⟨xi, M, h, hx⟩ := error_norm_eq _ _ hu hu'
    exact ⟨xi, M, h, by rw [hx]; simp [Point3.dot]⟩
  · rw [distance_eq _ _ hu hu]; simp [Point3.dot]
  · rw [distance_eq _ _ hu hu']; simp [Point3.dot]

/-- What the computing part of `basis(H)` returns and stores once the axis is known. -/
theorem basisCompute_eq (D : Point3Jacobians) (u : Unit3) (cache : BasisCache) (wantH : Bool)
    {axis : Point3} (ha : basisAxis u.p_ = some axis) :
    basisCompute D u cache wantH
      = some ((basisFromAxis u.p_ axis,
          if wantH then some (basisDerivative D u.p_ axis) else none),
        ⟨some (basisFromAxis u.p_ axis),
          if wantH then some (basisDerivative D u.p_ axis) else cache.H_B_⟩) := by
  cases wantH <;> simp [basisCompute, ha]

/-- One call of `basis(H)` on cells that hold only freshly computed values returns the fresh
values and leaves the cells in the same condition. -/
theorem basisMemo_step (D : Point3Jacobians) (u : Unit3) (cache : BasisCache) (wantH : Bool)
    {axis : Point3} (ha : basisAxis u.p_ = some axis)
    (hB : ∀ B, cache.B_ = some B → B = basisFromAxis u.p_ axis)
    (hH : ∀ H_B, cache.H_B_ = some H_B →
      H_B = basisDerivative D u.p_ axis ∧ cache.B_.isSome = true) :
    ∃ cache1, basisMemo D u cache wantH
        = some ((basisFromAxis u.p_ axis,
            if wantH then some (basisDerivative D u.p_ axis) else none), cache1) ∧
      (∀ B, cache1.B_ = some B → B = basisFromAxis u.p_ axis) ∧
      (∀ H_B, cache1.H_B_ = some H_B →
        H_B = basisDerivative D u.p_ axis ∧ cache1.B_.isSome = true) := by
  obtain ⟨cB, cH⟩ := cache
  have hcomp := basisCompute_eq D u ⟨cB, cH⟩ wantH ha
  have hfresh : ∃ cache1, basisCompute D u ⟨cB, cH⟩ wantH
        = some ((basisFromAxis u.p_ axis,
            if wantH then some (basisDerivative D u.p_ axis) else none), cache1) ∧
      (∀ B, cache1.B_ = some B → B = basisFromAxis u.p_ axis) ∧
      (∀ H_B, cache1.H_B_ = some H_B →
        H_B = basisDerivative D u.p_ axis ∧ cache1.B_.isSome = true) := by
    refine ⟨_, hcomp, ?_, ?_⟩
    · intro B h; exact (Option.some.inj h).symm
    · intro H_B h
      cases wantH
      · simp only [Bool.false_eq_true, if_false] at h
        exact ⟨(hH H_B h).1, rfl⟩
      · simp only [if_true] at h
        exact ⟨(Option.some.inj h).symm, rfl⟩
  cases cB with
  | none => simpa [basisMemo] using hfresh
  | some B =>
    have hBe : B = basisFromAxis u.p_ axis := hB B rfl
    cases wantH with
    | false =>
      refine ⟨⟨some B, cH⟩, by simp [basisMemo, hBe], hB, hH⟩
    | true =>
      cases cH with
      | none => simpa [basisMemo] using hfresh
      | some H_B =>
        have hHe : H_B = basisDerivative D u.p_ axis := (hH H_B rfl).1
        refine ⟨⟨some B, some H_B⟩, by simp [basisMemo, hBe, hHe], hB, hH⟩

/-- Any sequence of calls keeps the cells holding only freshly computed values. -/
theorem basisCalls_inv (D : Point3Jacobians) (u : Unit3) {axis : Point3}
    (ha : basisAxis u.p_ = some axis) (calls : List Bool) :
    ∀ cache : BasisCache,
      (∀ B, cache.B_ = some B → B = basisFromAxis u.p_ axis) →
      (∀ H_B, cache.H_B_ = some H_B →
        H_B = basisDerivative D u.p_ axis ∧ cache.B_.isSome = true) →
      ∃ cache1, basisCalls D u calls cache
          = some (calls.map fun wantH => (basisFromAxis u.p_ axis,
              if wantH then some (basisDerivative D u.p_ axis) else none), cache1) ∧
        (∀ B, cache1.B_ = some B → B = basisFromAxis u.p_ axis) ∧
        (∀ H_B, cache1.H_B_ = some H_B →
          H_B = basisDerivative D u.p_ axis ∧ cache1.B_.isSome = true) := by
  induction calls with
  | nil => intro cache hB hH; exact ⟨cache, rfl, hB, hH⟩
  | cons wantH rest ih =>
    intro cache hB hH
    obtain ⟨c1, h1, hB1, hH1⟩ := basisMemo_step D u cache wantH ha hB hH
    obtain ⟨c2, h2, hB2, hH2⟩ := ih c1 hB1 hH1
    exact ⟨c2, by simp [basisCalls, h1, h2], hB2, hH2⟩

/-- C21: for every unit direction `p`, whatever derivatives the Point3 methods supply, every
finite sequence of `basis` calls started on empty memo cells returns at each call the basis
`B` that `basis()` computes from `p`, and at each derivative request the same matrix `H_B`;
afterwards a cached basis, when present, is `B`, and a cached derivative, when present, is
`H_B` and comes with a cached basis.  `B` and `H_B` are what a first call without and with
a derivative request computes. -/
theorem basis_memo_transparent (D : Point3Jacobians) (p : Unit3) (_hp : p.IsUnitDirection)
    (calls : List Bool) :
    ∃ B H_B, p.basis = some B ∧
      ∃ cache, basisCalls D p calls ⟨none, none⟩
          = some (calls.map fun wantH => (B, if wantH then some H_B else none), cache) ∧
        (∀ B', cache.B_ = some B' → B' = B) ∧
        (∀ H_B', cache.H_B_ = some H_B' → H_B' = H_B ∧ cache.B_.isSome = true) ∧
        basisMemo D p ⟨none, none⟩ false = some ((B, none), ⟨some B, none⟩) ∧
        basisMemo D p ⟨none, none⟩ true = some ((B, some H_B), ⟨some B, some H_B⟩) := by
  rcases basisAxis_cases p.p_ with ⟨ha, _⟩ | ⟨ha, _⟩ | ⟨ha, _⟩ <;>
  · obtain ⟨cache, hc, hB, hH⟩ := basisCalls_inv D p ha calls ⟨none, none⟩
      (by intro B h; simp at h) (by intro H h; simp at h)
    refine ⟨_, basisDerivative D p.p_ _, by rw [basis, ha]; rfl, cache, hc, hB, hH, ?_, ?_⟩
    · simp [basisMemo, basisCompute, ha]
    · simp [basisMemo, basisCompute, ha]

/-- C21 at `p = (0,0,1)`, the analytic derivatives and the calls without, with, without and
with a derivative request. -/
theorem basis_memo_transparent_witness :
    (Unit3.mk ⟨0, 0, 1⟩).IsUnitDirection ∧
    ∃ B H_B, (Unit3.mk ⟨0, 0, 1⟩).basis = some B ∧
      ∃ cache, basisCalls analyticJacobians ⟨⟨0, 0, 1⟩⟩ [false, true, false, true] ⟨none, none⟩
          = some ([false, true, false, true].map
              fun wantH => (B, if wantH then some H_B else none), cache) ∧
        (∀ B', cache.B_ = some B' → B' = B) ∧
        (∀ H_B', cache.H_B_ = some H_B' → H_B' = H_B ∧ cache.B_.isSome = true) ∧
        basisMemo analyticJacobians ⟨⟨0, 0, 1⟩⟩ ⟨none, none⟩ false
          = some ((B, none), ⟨some B, none⟩) ∧
        basisMemo analyticJacobians ⟨⟨0, 0, 1⟩⟩ ⟨none, none⟩ true
          = some ((B, some H_B), ⟨some B, some H_B⟩) :=
  ⟨unitZ_isUnitDirection,
   basis_memo_transparent analyticJacobians ⟨⟨0, 0, 1⟩⟩ unitZ_isUnitDirection
     [false, true, false, true]⟩

theorem dot_neg_self {u : Unit3} (hu : u.IsUnitDirection) : u.p_.dot (-u.p_) = -1 := by
  have hn := (norm_eq_one_iff u.p_).mp hu
  simp only [Point3.dot, Point3.neg_x, Point3.neg_y, Point3.neg_z]
  linarith

theorem neg_isUnitDirection {u : Unit3} (hu : u.IsUnitDirection) :
    (Unit3.mk (-u.p_)).IsUnitDirection := by
  have hn := (norm_eq_one_iff u.p_).mp hu
  rw [IsUnitDirection, norm_eq_one_iff]
  simp only [Point3.neg_x, Point3.neg_y, Point3.neg_z]
  linarith

theorem dot_sq_le_one {p q : Point3} (hp : p.x * p.x + p.y * p.y + p.z * p.z = 1)
    (hq : q.x * q.x + q.y * q.y + q.z * q.z = 1) : (p.dot q) * (p.dot q) ≤ 1 := by
  simp only [Point3.dot]
  nlinarith [sq_nonneg (p.x * q.y - p.y * q.x), sq_nonneg (p.y * q.z - p.z * q.y),
    sq_nonneg (p.z * q.x - p.x * q.z)]

/-- C23: for all unit directions `p`, `q`, `distance(p, q)` returns `d = ‖basis(p)ᵗ · q‖`
with `d² = 1 - (p · q)²`, hence `0 ≤ d ≤ 1`, and `distance(p, -p)` is 0. -/
theorem distance_is_sine (p q : Unit3) (hp : p.IsUnitDirection) (hq : q.IsUnitDirection)
    (wantH : Bool) :
    ∃ B d, p.basis = some B ∧ (p.distance q wantH).map Prod.fst = some d ∧
      d = (B.transpose.mulVec q.p_).norm ∧
      d ^ 2 = 1 - (p.p_.dot q.p_) ^ 2 ∧ 0 ≤ d ∧ d ≤ 1 ∧
      (p.distance ⟨-p.p_⟩ wantH).map Prod.fst = some 0 := by
  obtain ⟨B, hB, hF⟩ := basis_frame p hp
  obtain ⟨Bq, hBq, _⟩ := basis_frame q hq
  have hn := (norm_eq_one_iff p.p_).mp hp
  have hm := (norm_eq_one_iff q.p_).mp hq
  have hle := dot_sq_le_one hn hm
  have hnn : 0 ≤ 1 - (p.p_.dot q.p_) * (p.p_.dot q.p_) := by linarith
  have hd : (B.transpose.mulVec q.p_).norm
      = Real.sqrt (1 - (p.p_.dot q.p_) * (p.p_.dot q.p_)) := by
    rw [Vector2.norm, hF.parseval hn, hm]
  refine ⟨B, _, hB, distance_of_frame p q wantH hB hBq, rfl, ?_, ?_, ?_, ?_⟩
  · rw [hd, Real.sq_sqrt hnn]; ring
  · exact Real.sqrt_nonneg _
  · rw [hd]
    have h1 : 1 - (p.p_.dot q.p_) * (p.p_.dot q.p_) ≤ 1 := by
      linarith [mul_self_nonneg (p.p_.dot q.p_)]
    calc Real.sqrt (1 - (p.p_.dot q.p_) * (p.p_.dot q.p_)) ≤ Real.sqrt 1 :=
          Real.sqrt_le_sqrt h1
      _ = 1 := Real.sqrt_one
  · rw [distance_eq p ⟨-p.p_⟩ hp (neg_isUnitDirection hp) wantH, dot_neg_self hp]
    norm_num

/-- C23 at `p = (0,0,1)`, `q = (1,0,0)`, with the derivative requested. -/
theorem distance_is_sine_witness :
    (Unit3.mk ⟨0, 0, 1⟩).IsUnitDirection ∧ (Unit3.mk ⟨1, 0, 0⟩).IsUnitDirection ∧
    ∃ B d, (Unit3.mk ⟨0, 0, 1⟩).basis = some B ∧
      ((Unit3.mk ⟨0, 0, 1⟩).distance ⟨⟨1, 0, 0⟩⟩ true).map Prod.fst = some d ∧
      d = (B.transpose.mulVec (Unit3.mk ⟨1, 0, 0⟩).p_).norm ∧
      d ^ 2 = 1 - ((Unit3.mk ⟨0, 0, 1⟩).p_.dot (Unit3.mk ⟨1, 0, 0⟩).p_) ^ 2 ∧ 0 ≤ d ∧ d ≤ 1 ∧
      ((Unit3.mk ⟨0, 0, 1⟩).distance ⟨-(Unit3.mk ⟨0, 0, 1⟩).p_⟩ true).map Prod.fst = some 0 :=
  ⟨unitZ_isUnitDirection, by simp [IsUnitDirection, Point3.norm],
   distance_is_sine ⟨⟨0, 0, 1⟩⟩ ⟨⟨1, 0, 0⟩⟩ unitZ_isUnitDirection
     (by simp [IsUnitDirection, Point3.norm]) true⟩

/-- C25: for every unit direction `n`, `basis()` selects a world axis `e_i` and the cross
product with it satisfies `‖n × e_i‖² = 1 - n_i² ≥ 2/3`, so the norm that `normalize`
divides by is positive. -/
theorem basis_normalisation_safe (n : Unit3) (hn : n.IsUnitDirection) :
    ∃ axis, basisAxis n.p_ = some axis ∧
      (axis = ⟨1, 0, 0⟩ ∨ axis = ⟨0, 1, 0⟩ ∨ axis = ⟨0, 0, 1⟩) ∧
      (n.p_.cross axis).norm ^ 2 = 1 - (n.p_.dot axis) ^ 2 ∧
      2 / 3 ≤ (n.p_.cross axis).norm ^ 2 ∧
      0 < (n.p_.cross axis).norm := by
  have h1 := (norm_eq_one_iff n.p_).mp hn
  have key : ∀ axis : Point3,
      2 / 3 ≤ (n.p_.cross axis).x * (n.p_.cross axis).x
        + (n.p_.cross axis).y * (n.p_.cross axis).y
        + (n.p_.cross axis).z * (n.p_.cross axis).z →
      (n.p_.cross axis).x * (n.p_.cross axis).x + (n.p_.cross axis).y * (n.p_.cross axis).y
        + (n.p_.cross axis).z * (n.p_.cross axis).z = 1 - (n.p_.dot axis) ^ 2 →
      (n.p_.cross axis).norm ^ 2 = 1 - (n.p_.dot axis) ^ 2 ∧
      2 / 3 ≤ (n.p_.cross axis).norm ^ 2 ∧ 0 < (n.p_.cross axis).norm := by
    intro axis hge heq
    have hsq : (n.p_.cross axis).norm ^ 2 = (n.p_.cross axis).x * (n.p_.cross axis).x
        + (n.p_.cross axis).y * (n.p_.cross axis).y
        + (n.p_.cross axis).z * (n.p_.cross axis).z :=
      Real.sq_sqrt (by linarith)
    exact ⟨by rw [hsq, heq], by rw [hsq]; exact hge, Real.sqrt_pos.mpr (by linarith)⟩
  rcases basisAxis_cases n.p_ with ⟨h, ha, hb⟩ | ⟨h, ha, hb⟩ | ⟨h, ha, hb⟩
  · refine ⟨_, h, Or.inl rfl, key _ ?_ ?_⟩ <;> rw [← sq_le_sq] at ha hb <;>
      simp only [Point3.cross, Point3.dot] <;> nlinarith
  · refine ⟨_, h, Or.inr (Or.inl rfl), key _ ?_ ?_⟩ <;> rw [← sq_le_sq] at ha hb <;>
      simp only [Point3.cross, Point3.dot] <;> nlinarith
  · refine ⟨_, h, Or.inr (Or.inr rfl), key _ ?_ ?_⟩ <;> rw [← sq_le_sq] at ha hb <;>
      simp only [Point3.cross, Point3.dot] <;> nlinarith

/-- C25 at `n = (0,0,1)`. -/
theorem basis_normalisation_safe_witness :
    (Unit3.mk ⟨0, 0, 1⟩).IsUnitDirection ∧
    ∃ axis, basisAxis (Unit3.mk ⟨0, 0, 1⟩).p_ = some axis ∧
      (axis = ⟨1, 0, 0⟩ ∨ axis = ⟨0, 1, 0⟩ ∨ axis = ⟨0, 0, 1⟩) ∧
      ((Unit3.mk ⟨0, 0, 1⟩).p_.cross axis).norm ^ 2
        = 1 - ((Unit3.mk ⟨0, 0, 1⟩).p_.dot axis) ^ 2 ∧
      2 / 3 ≤ ((Unit3.mk ⟨0, 0, 1⟩).p_.cross axis).norm ^ 2 ∧
      0 < ((Unit3.mk ⟨0, 0, 1⟩).p_.cross axis).norm :=
  ⟨unitZ_isUnitDirection, basis_normalisation_safe ⟨⟨0, 0, 1⟩⟩ unitZ_isUnitDirection⟩

/-! ### `retract`, `FromPoint3` and `localCoordinates` over the range of a double -/

theorem xi_hat_norm_of_unit (p : Unit3) (hp : p.IsUnitDirection) (v : Vector2) :
    ∃ B, p.basis = some B ∧ TangentFrame p.p_ B ∧
      (v.x * B.col 0 + v.y * B.col 1 : Point3).norm = v.norm := by
  obtain ⟨B, hB, hF⟩ := basis_frame p hp
  exact ⟨B, hB, hF, hF.xi_hat_norm v⟩

theorem retractRanged_zero (p : Unit3) :
    p.retractRanged ⟨0, 0⟩ = some (RetractBranch.unchanged, Ranged.finite p) := by
  obtain ⟨B, hB⟩ := basis_isSome p
  have h1 : ¬ overflowBound ≤ (0 : ℝ) := by unfold overflowBound; norm_num
  have h2 : (0 : ℝ) ≤ underflowBound := underflowBound_pos.le
  simp [retractRanged, hB, Point3.normRanged, Vector2.normRanged_zero, h1, h2, ofVector3, point3]

/-- The point of the last return statement of `retract` has norm 1. -/
theorem exp_unit {p : Unit3} (hp : p.IsUnitDirection) {B : Matrix32} (hB : p.basis = some B)
    (hF : TangentFrame p.p_ B) (v : Vector2) (h0 : v.norm ≠ 0) :
    (Unit3.mk (Real.cos v.norm * p.p_
      + Real.sin v.norm * ((v.x * B.col 0 + v.y * B.col 1) / v.norm))).IsUnitDirection := by
  obtain ⟨q, hq, hu⟩ := retract_unit p hp v
  rw [retract_of_frame p v hB hF, if_neg h0] at hq
  rw [Option.some.inj hq]
  exact hu

/-- When the norm of the displacement is inside the range, the last return statement runs on
the exact norm. -/
theorem retractRanged_of_norm (p : Unit3) (v : Vector2) {B : Matrix32} (hB : p.basis = some B)
    (h0 : v.norm ≠ 0)
    (hn : (v.x * B.col 0 + v.y * B.col 1 : Point3).normRanged = some v.norm) :
    p.retractRanged v = some (RetractBranch.exponential, Ranged.finite
      ⟨Real.cos v.norm * p.p_
        + Real.sin v.norm * ((v.x * B.col 0 + v.y * B.col 1) / v.norm)⟩) := by
  simp only [retractRanged, hB, Option.bind_eq_bind, Option.some_bind, hn, if_neg h0,
    Option.pure_def, ofVector3, Point3.vector]

theorem retractRanged_exponential (p : Unit3) (hp : p.IsUnitDirection) (v : Vector2)
    (hlo : 1e-150 ≤ v.norm) (hhi : v.norm ≤ 1e150) :
    ∃ B, p.basis = some B ∧ TangentFrame p.p_ B ∧
      p.retractRanged v = some (RetractBranch.exponential, Ranged.finite
        ⟨Real.cos v.norm * p.p_
          + Real.sin v.norm * ((v.x * B.col 0 + v.y * B.col 1) / v.norm)⟩) := by
  obtain ⟨B, hB, hF, hxi⟩ := xi_hat_norm_of_unit p hp v
  have h0 : v.norm ≠ 0 := by
    intro h; rw [h] at hlo; norm_num at hlo
  refine ⟨B, hB, hF, retractRanged_of_norm p v hB h0 ?_⟩
  have := Point3.normRanged_eq_norm (v.x * B.col 0 + v.y * B.col 1) (by rw [hxi]; exact hlo)
    (by rw [hxi]; exact hhi)
  rw [this, hxi]

/-- Whatever the norm of `v` up to `1e150`, `retract` over doubles returns a point of
norm 1. -/
theorem retractRanged_unit (p : Unit3) (hp : p.IsUnitDirection) (v : Vector2)
    (hhi : v.norm ≤ 1e150) :
    ∃ b q, p.retractRanged v = some (b, Ranged.finite q) ∧ q.IsUnitDirection := by
  obtain ⟨B, hB, hF, hxi⟩ := xi_hat_norm_of_unit p hp v
  rcases Point3.normRanged_of_le (v.x * B.col 0 + v.y * B.col 1) (by rw [hxi]; exact hhi)
    with h | h
  · by_cases hv : v.normRanged = some 0
    · refine ⟨RetractBranch.unchanged, p, ?_, hp⟩
      simp [retractRanged, hB, h, hv, ofVector3, point3]
    · refine ⟨RetractBranch.antipodal, ⟨-p.p_⟩, ?_, neg_isUnitDirection hp⟩
      simp [retractRanged, hB, h, hv, ofVector3, point3]
  · rw [hxi] at h
    by_cases h0 : v.norm = 0
    · have hv0 := (Vector2.norm_eq_zero_iff v).mp h0
      rw [hv0]
      exact ⟨_, _, retractRanged_zero p, hp⟩
    · exact ⟨_, _, retractRanged_of_norm p v hB h0 h, exp_unit hp hB hF v h0⟩

/-- A tangent vector that is zero or of norm at least `1e-150` does not reach the second
return statement of `retract`. -/
theorem retractRanged_branch (p : Unit3) (hp : p.IsUnitDirection) (v : Vector2)
    (hv : v = ⟨0, 0⟩ ∨ 1e-150 ≤ v.norm) :
    ∃ b r, p.retractRanged v = some (b, r) ∧ b ≠ RetractBranch.antipodal := by
  rcases hv with hv | hv
  · rw [hv]
    exact ⟨_, _, retractRanged_zero p, by simp⟩
  · obtain ⟨B, hB, hF, hxi⟩ := xi_hat_norm_of_unit p hp v
    have h0 : v.norm ≠ 0 := by
      intro h; rw [h] at hv; norm_num at hv
    rcases Point3.normRanged_of_ge (v.x * B.col 0 + v.y * B.col 1) (by rw [hxi]; exact hv)
      with h | h
    · refine ⟨RetractBranch.exponential, Ranged.nonFinite, ?_, by simp⟩
      simp [retractRanged, hB, h]
    · rw [hxi] at h
      exact ⟨_, _, retractRanged_of_norm p v hB h0 h, by simp⟩

theorem basis_oblique : (Unit3.mk ⟨0.6, 0, 0.8⟩).basis = some ⟨-0.8, 0, 0, -1, 0.6, 0⟩ := by
  have h1 : ¬ (|(0.6 : ℝ)| ≤ |(0 : ℝ)| ∧ |(0.6 : ℝ)| ≤ |(0.8 : ℝ)|) := by
    rw [abs_of_pos (by norm_num : (0 : ℝ) < 0.6), abs_zero]; norm_num
  have h2 : |(0 : ℝ)| ≤ |(0.6 : ℝ)| ∧ |(0 : ℝ)| ≤ |(0.8 : ℝ)| := by
    rw [abs_zero]; exact ⟨abs_nonneg _, abs_nonneg _⟩
  have hs : Real.sqrt ((0.8 : ℝ) * 0.8 + 0.6 * 0.6) = 1 := by
    rw [show (0.8 : ℝ) * 0.8 + 0.6 * 0.6 = 1 by norm_num]; exact Real.sqrt_one
  simp only [basis, basisAxis, if_neg h1, if_pos h2, Option.map_some', basisFromAxis,
    Point3.cross, Point3.normalize, Point3.norm, Point3.div_x, Point3.div_y, Point3.div_z]
  norm_num [hs]

theorem oblique_isUnitDirection : (Unit3.mk ⟨0.6, 0, 0.8⟩).IsUnitDirection := by
  rw [IsUnitDirection, norm_eq_one_iff]; norm_num

/-- At `p = (0.6, 0, 0.8)`, `v = (1.7e-162, 0)` the displacement is
`(-1.36e-162, 0, 1.02e-162)`: each of its squares rounds to zero. -/
theorem xi_hat_oblique_tiny :
    (Point3.normRanged ((1.7e-162 : ℝ) * (Matrix32.mk (-0.8) 0 0 (-1) 0.6 0).col 0
      + (0 : ℝ) * (Matrix32.mk (-0.8) 0 0 (-1) 0.6 0).col 1)) = some 0 := by
  simp only [Point3.normRanged, Matrix32.col, Point3.add_x, Point3.add_y, Point3.add_z,
    Point3.smul_x, Point3.smul_y, Point3.smul_z, if_true, one_ne_zero, if_false]
  rw [if_neg (by unfold overflowBound; norm_num), if_pos (by unfold underflowBound; norm_num)]

/-- The square of `1.7e-162` does not round to zero, so the norm of `v = (1.7e-162, 0)` is
not zero. -/
theorem normRanged_tiny : (Vector2.mk 1.7e-162 0).normRanged ≠ some 0 := by
  simp only [Vector2.normRanged]
  rw [if_neg (by unfold overflowBound; norm_num), if_neg (by unfold underflowBound; norm_num)]
  intro h
  have h' := (Vector2.norm_eq_zero_iff _).mp (Option.some.inj h)
  have := congrArg Vector2.x h'
  norm_num at this

/-- The value of `retract` over doubles at `p = (0.6, 0, 0.8)`, `v = (1.7e-162, 0)`. -/
theorem retractRanged_oblique_tiny :
    (Unit3.mk ⟨0.6, 0, 0.8⟩).retractRanged ⟨1.7e-162, 0⟩
      = some (RetractBranch.antipodal, Ranged.finite ⟨-⟨0.6, 0, 0.8⟩⟩) := by
  simp only [retractRanged, basis_oblique, Option.bind_eq_bind, Option.some_bind,
    xi_hat_oblique_tiny]
  simp [normRanged_tiny, ofVector3, point3]

/-- The value of `retract` over doubles at `p = (0,0,1)`, `v = (1e200, 0)`: the displacement
is `(0, 1e200, 0)` and its square rounds to infinity. -/
theorem retractRanged_unitZ_huge :
    (Unit3.mk ⟨0, 0, 1⟩).retractRanged ⟨1e200, 0⟩
      = some (RetractBranch.exponential, Ranged.nonFinite) := by
  have hxi : (Point3.normRanged ((1e200 : ℝ) * (Matrix32.mk 0 (-1) 1 0 0 0).col 0
      + (0 : ℝ) * (Matrix32.mk 0 (-1) 1 0 0 0).col 1)) = none := by
    simp only [Point3.normRanged, Matrix32.col, Point3.add_x, Point3.add_y, Point3.add_z,
      Point3.smul_x, Point3.smul_y, Point3.smul_z, if_true, one_ne_zero, if_false]
    rw [if_pos (by unfold overflowBound; norm_num)]
  simp only [retractRanged, basis_unitZ, Option.bind_eq_bind, Option.some_bind, hxi]
  rfl

theorem zero_not_unit : ¬ (Unit3.mk ⟨0, 0, 0⟩).IsUnitDirection := by
  rw [IsUnitDirection, norm_eq_one_iff]; norm_num

theorem FromPoint3Ranged_of_norm (x : Point3) (hlo : 1e-150 ≤ x.norm) (hhi : x.norm ≤ 1e150) :
    FromPoint3Ranged x = Ranged.finite ⟨x / x.norm⟩ := by
  have h0 : x.norm ≠ 0 := by
    intro h; rw [h] at hlo; norm_num at hlo
  simp only [FromPoint3Ranged, Point3.normalizeRanged, Point3.normRanged_eq_norm x hlo hhi,
    if_neg h0]

theorem ne_zero_of_norm (x : Point3) (hlo : 1e-150 ≤ x.norm) : x ≠ ⟨0, 0, 0⟩ := by
  intro h
  rw [h] at hlo
  simp [Point3.norm] at hlo
  norm_num at hlo

theorem norm_100_7 : (Vector2.mk 100 (-7)).norm ≤ 1e150 := by
  rw [Vector2.norm, Real.sqrt_le_left (by norm_num)]
  norm_num

theorem norm_3_0_4 : (Point3.mk 3 0 4).norm = 5 := by
  rw [Point3.norm, show (3 : ℝ) * 3 + 0 * 0 + 4 * 4 = 5 * 5 by norm_num]
  exact Real.sqrt_mul_self (by norm_num)

theorem norm_3_4 : (Vector2.mk 3 4).norm = 5 := by
  rw [Vector2.norm, show (3 : ℝ) * 3 + 4 * 4 = 5 * 5 by norm_num]
  exact Real.sqrt_mul_self (by norm_num)

/-- C10 fails as stated: `p = (0,0,1)` is a unit direction and `v = (1e200, 0)` is a large
tangent vector, yet `retract(p, v)` over doubles returns no point of norm 1: the norm of the
displacement `(0, 1e200, 0)` overflows to infinity and the coordinates returned are NaN.
Likewise `x = (1e200, 0, 0)` is nonzero and `FromPoint3(x)` is `x` divided by infinity, the
zero vector, whose norm is not 1; and `x = (1e-170, 0, 0)` is nonzero and `FromPoint3(x)` is
`x` divided by a norm that underflows to zero, which is not finite. -/
theorem unit_norm_out_of_range :
    (Unit3.mk ⟨0, 0, 1⟩).IsUnitDirection ∧
    (Unit3.mk ⟨0, 0, 1⟩).retractRanged ⟨1e200, 0⟩
      = some (RetractBranch.exponential, Ranged.nonFinite) ∧
    (¬ ∃ b q, (Unit3.mk ⟨0, 0, 1⟩).retractRanged ⟨1e200, 0⟩ = some (b, Ranged.finite q) ∧
      q.IsUnitDirection) ∧
    (Point3.mk 1e200 0 0) ≠ ⟨0, 0, 0⟩ ∧
    FromPoint3Ranged ⟨1e200, 0, 0⟩ = Ranged.finite ⟨⟨0, 0, 0⟩⟩ ∧
    ¬ (Unit3.mk ⟨0, 0, 0⟩).IsUnitDirection ∧
    (Point3.mk 1e-170 0 0) ≠ ⟨0, 0, 0⟩ ∧
    FromPoint3Ranged ⟨1e-170, 0, 0⟩ = Ranged.nonFinite := by
  refine ⟨unitZ_isUnitDirection, retractRanged_unitZ_huge, ?_, ?_, ?_, zero_not_unit, ?_, ?_⟩
  · rintro ⟨b, q, h, _⟩
    rw [retractRanged_unitZ_huge] at h
    simp at h
  · intro h
    have := congrArg Point3.x h
    norm_num at this
  · simp only [FromPoint3Ranged, Point3.normalizeRanged, Point3.normRanged_axis_huge]
  · intro h
    have := congrArg Point3.x h
    norm_num at this
  · simp only [FromPoint3Ranged, Point3.normalizeRanged, Point3.normRanged_axis_tiny, if_true]

/-- C10 (as amended): for every unit direction `p` and every tangent vector `v` with
`‖v‖ ≤ 1e150` (zero and tiny ones included) `retract(p, v)` over doubles returns a point, and
the point has norm 1; for every 3-vector `x` with `1e-150 ≤ ‖x‖ ≤ 1e150`, `FromPoint3(x)`
over doubles is `x / ‖x‖`, which has norm 1. -/
theorem unit_norm_in_range (p : Unit3) (hp : p.IsUnitDirection) (v : Vector2) (x : Point3)
    (hv : v.norm ≤ 1e150) (hxlo : 1e-150 ≤ x.norm) (hxhi : x.norm ≤ 1e150) :
    (∃ b q, p.retractRanged v = some (b, Ranged.finite q) ∧ q.IsUnitDirection) ∧
    FromPoint3Ranged x = Ranged.finite ⟨x / x.norm⟩ ∧
    (Unit3.mk (x / x.norm)).IsUnitDirection :=
  ⟨retractRanged_unit p hp v hv, FromPoint3Ranged_of_norm x hxlo hxhi,
   FromPoint3_unit x (ne_zero_of_norm x hxlo)⟩

/-- C10 (as amended) at `p = (0,0,1)`, `v = (100, -7)`, `x = (3, 0, 4)`. -/
theorem unit_norm_in_range_witness :
    (Unit3.mk ⟨0, 0, 1⟩).IsUnitDirection ∧ (Vector2.mk 100 (-7)).norm ≤ 1e150 ∧
    1e-150 ≤ (Point3.mk 3 0 4).norm ∧ (Point3.mk 3 0 4).norm ≤ 1e150 ∧
    (∃ b q, (Unit3.mk ⟨0, 0, 1⟩).retractRanged ⟨100, -7⟩ = some (b, Ranged.finite q) ∧
      q.IsUnitDirection) ∧
    FromPoint3Ranged ⟨3, 0, 4⟩ = Ranged.finite ⟨(Point3.mk 3 0 4) / (Point3.mk 3 0 4).norm⟩ ∧
    (Unit3.mk ((Point3.mk 3 0 4) / (Point3.mk 3 0 4).norm)).IsUnitDirection :=
  ⟨unitZ_isUnitDirection, norm_100_7, by rw [norm_3_0_4]; norm_num,
   by rw [norm_3_0_4]; norm_num,
   unit_norm_in_range ⟨⟨0, 0, 1⟩⟩ unitZ_isUnitDirection ⟨100, -7⟩ ⟨3, 0, 4⟩ norm_100_7
     (by rw [norm_3_0_4]; norm_num) (by rw [norm_3_0_4]; norm_num)⟩

/-- C12 fails as stated: `p = (0.6, 0, 0.8)` is a unit direction and `v = (1.7e-162, 0)` is
nonzero, yet `retract(p, v)` over doubles is `-p`, whose dot product with `p` is `-1` and not
`cos ‖v‖`: the squares of the displacement underflow to zero, so the test
`xi_hat_norm == 0` holds and the exponential-map expression is never evaluated.  And at the
unit direction `p = (0,0,1)` and the nonzero `v = (1e200, 0)` the norm of the displacement
overflows and the exponential-map expression has NaN coordinates. -/
theorem retract_underflow_antipode :
    (Unit3.mk ⟨0.6, 0, 0.8⟩).IsUnitDirection ∧ (Vector2.mk 1.7e-162 0) ≠ ⟨0, 0⟩ ∧
    (Unit3.mk ⟨0.6, 0, 0.8⟩).retractRanged ⟨1.7e-162, 0⟩
      = some (RetractBranch.antipodal, Ranged.finite ⟨-⟨0.6, 0, 0.8⟩⟩) ∧
    (Point3.mk 0.6 0 0.8).dot (-⟨0.6, 0, 0.8⟩) = -1 ∧
    (Point3.mk 0.6 0 0.8).dot (-⟨0.6, 0, 0.8⟩) ≠ Real.cos (Vector2.mk 1.7e-162 0).norm ∧
    (Unit3.mk ⟨0, 0, 1⟩).IsUnitDirection ∧ (Vector2.mk 1e200 0) ≠ ⟨0, 0⟩ ∧
    (Unit3.mk ⟨0, 0, 1⟩).retractRanged ⟨1e200, 0⟩
      = some (RetractBranch.exponential, Ranged.nonFinite) := by
  have hd : (Point3.mk 0.6 0 0.8).dot (-⟨0.6, 0, 0.8⟩) = -1 := by
    simp only [Point3.dot, Point3.neg_x, Point3.neg_y, Point3.neg_z]; norm_num
  refine ⟨oblique_isUnitDirection, ?_, retractRanged_oblique_tiny, hd, ?_,
    unitZ_isUnitDirection, ?_, retractRanged_unitZ_huge⟩
  · intro h
    have := congrArg Vector2.x h
    norm_num at this
  · rw [hd, Vector2.norm_along_x _ (by norm_num)]
    have := Real.one_sub_sq_div_two_le_cos (x := 1.7e-162)
    intro h
    rw [← h] at this
    norm_num at this
  · intro h
    have := congrArg Vector2.x h
    norm_num at this

/-- C12 (as amended): for every unit direction `p` with basis columns `b1`, `b2` and every
tangent vector `v` with `1e-150 ≤ ‖v‖ ≤ 1000`, `retract(p, v)` over doubles takes its last
return statement and returns `cos‖v‖ · p + sin‖v‖ · (v₀ · b1 + v₁ · b2) / ‖v‖`, whose dot
product with `p` is `cos‖v‖`.  For `p = (0,0,1)`, `v = (0, 0.1)` the result is
`(-sin 0.1, 0, cos 0.1)`. -/
theorem retract_exponential_map_in_range (p : Unit3) (v : Vector2) (hp : p.IsUnitDirection)
    (hlo : 1e-150 ≤ v.norm) (hhi : v.norm ≤ 1000) :
    (∃ B, p.basis = some B ∧
      p.retractRanged v = some (RetractBranch.exponential, Ranged.finite
        ⟨Real.cos v.norm * p.p_
          + Real.sin v.norm * ((v.x * B.col 0 + v.y * B.col 1) / v.norm)⟩) ∧
      p.p_.dot (Real.cos v.norm * p.p_
        + Real.sin v.norm * ((v.x * B.col 0 + v.y * B.col 1) / v.norm)) = Real.cos v.norm) ∧
    (Unit3.mk ⟨0, 0, 1⟩).retractRanged ⟨0, 0.1⟩
      = some (RetractBranch.exponential, Ranged.finite ⟨⟨-Real.sin 0.1, 0, Real.cos 0.1⟩⟩) := by
  have hn := (norm_eq_one_iff p.p_).mp hp
  have h0 : v.norm ≠ 0 := by
    intro h; rw [h] at hlo; norm_num at hlo
  obtain ⟨B, hB, hF, hr⟩ := retractRanged_exponential p hp v hlo (by linarith)
  refine ⟨⟨B, hB, hr, retract_dot hn hF v h0⟩, ?_⟩
  obtain ⟨B', hB', _, hr'⟩ := retractRanged_exponential ⟨⟨0, 0, 1⟩⟩ unitZ_isUnitDirection
    ⟨0, 0.1⟩ (by rw [norm_tenth]; norm_num) (by rw [norm_tenth]; norm_num)
  have hBe : B' = ⟨0, -1, 1, 0, 0, 0⟩ := Option.some.inj (hB'.symm.trans basis_unitZ)
  rw [hr', norm_tenth, hBe]
  congr 4
  ext <;> simp [Matrix32.col]
  norm_num

/-- C12 (as amended) at `p = (0,0,1)`, `v = (0, 0.1)`. -/
theorem retract_exponential_map_in_range_witness :
    (Unit3.mk ⟨0, 0, 1⟩).IsUnitDirection ∧ 1e-150 ≤ (Vector2.mk 0 0.1).norm ∧
    (Vector2.mk 0 0.1).norm ≤ 1000 ∧
    (∃ B, (Unit3.mk ⟨0, 0, 1⟩).basis = some B ∧
      (Unit3.mk ⟨0, 0, 1⟩).retractRanged ⟨0, 0.1⟩ = some (RetractBranch.exponential,
        Ranged.finite ⟨Real.cos (Vector2.mk 0 0.1).norm * (Point3.mk 0 0 1)
          + Real.sin (Vector2.mk 0 0.1).norm *
            (((Vector2.mk 0 0.1).x * B.col 0 + (Vector2.mk 0 0.1).y * B.col 1)
              / (Vector2.mk 0 0.1).norm)⟩) ∧
      (Point3.mk 0 0 1).dot (Real.cos (Vector2.mk 0 0.1).norm * (Point3.mk 0 0 1)
        + Real.sin (Vector2.mk 0 0.1).norm *
          (((Vector2.mk 0 0.1).x * B.col 0 + (Vector2.mk 0 0.1).y * B.col 1)
            / (Vector2.mk 0 0.1).norm)) = Real.cos (Vector2.mk 0 0.1).norm) ∧
    (Unit3.mk ⟨0, 0, 1⟩).retractRanged ⟨0, 0.1⟩
      = some (RetractBranch.exponential, Ranged.finite ⟨⟨-Real.sin 0.1, 0, Real.cos 0.1⟩⟩) :=
  ⟨unitZ_isUnitDirection, by rw [norm_tenth]; norm_num, by rw [norm_tenth]; norm_num,
   retract_exponential_map_in_range ⟨⟨0, 0, 1⟩⟩ ⟨0, 0.1⟩ unitZ_isUnitDirection
     (by rw [norm_tenth]; norm_num) (by rw [norm_tenth]; norm_num)⟩

/-- C22 fails as stated: `p = (0.6, 0, 0.8)` is a unit direction and `v = (1.7e-162, 0)` is
nonzero, yet `retract(p, v)` over doubles takes the branch guarded by `xi_hat_norm == 0` and
`v.norm() != 0`: with the basis `B` of `p` the squares of `v₀ · b1 + v₁ · b2` all round to
zero, while the square of `v₀` does not. -/
theorem retract_antipodal_branch_reached :
    (Unit3.mk ⟨0.6, 0, 0.8⟩).IsUnitDirection ∧ (Vector2.mk 1.7e-162 0) ≠ ⟨0, 0⟩ ∧
    ∃ B, (Unit3.mk ⟨0.6, 0, 0.8⟩).basis = some B ∧
      ((Vector2.mk 1.7e-162 0).x * B.col 0 + (Vector2.mk 1.7e-162 0).y * B.col 1
        : Point3).normRanged = some 0 ∧
      (Vector2.mk 1.7e-162 0).normRanged ≠ some 0 ∧
      ∃ r, (Unit3.mk ⟨0.6, 0, 0.8⟩).retractRanged ⟨1.7e-162, 0⟩
        = some (RetractBranch.antipodal, r) := by
  refine ⟨oblique_isUnitDirection, ?_, _, basis_oblique, xi_hat_oblique_tiny, normRanged_tiny,
    _, retractRanged_oblique_tiny⟩
  intro h
  have := congrArg Vector2.x h
  norm_num at this

/-- C22 (as amended): for every unit direction `p` with basis `B`, in exact arithmetic the
ambient displacement `w₀ · b1 + w₁ · b2` of every tangent vector `w` has the norm of `w`, so
it has norm zero only when `w = 0`; and for every tangent vector `v` that is zero or has
`‖v‖ ≥ 1e-150`, `retract(p, v)` over doubles does not take the branch guarded by
`xi_hat_norm == 0` and `v.norm() != 0`, which returns `-p`. -/
theorem retract_antipodal_branch_in_range (p : Unit3) (hp : p.IsUnitDirection) (v : Vector2)
    (hv : v = ⟨0, 0⟩ ∨ 1e-150 ≤ v.norm) :
    ∃ B, p.basis = some B ∧
      (∀ w : Vector2, (w.x * B.col 0 + w.y * B.col 1 : Point3).norm = w.norm ∧
        ((w.x * B.col 0 + w.y * B.col 1 : Point3).norm = 0 ↔ w = ⟨0, 0⟩)) ∧
      ∃ b r, p.retractRanged v = some (b, r) ∧ b ≠ RetractBranch.antipodal := by
  obtain ⟨B, hB, hF⟩ := basis_frame p hp
  refine ⟨B, hB, fun w => ⟨hF.xi_hat_norm w, ?_⟩, retractRanged_branch p hp v hv⟩
  rw [hF.xi_hat_norm w]; exact Vector2.norm_eq_zero_iff w

/-- C22 (as amended) at `p = (0,0,1)`, `v = (3, 4)`. -/
theorem retract_antipodal_branch_in_range_witness :
    (Unit3.mk ⟨0, 0, 1⟩).IsUnitDirection ∧
    ((Vector2.mk 3 4) = ⟨0, 0⟩ ∨ 1e-150 ≤ (Vector2.mk 3 4).norm) ∧
    ∃ B, (Unit3.mk ⟨0, 0, 1⟩).basis = some B ∧
      (∀ w : Vector2, (w.x * B.col 0 + w.y * B.col 1 : Point3).norm = w.norm ∧
        ((w.x * B.col 0 + w.y * B.col 1 : Point3).norm = 0 ↔ w = ⟨0, 0⟩)) ∧
      ∃ b r, (Unit3.mk ⟨0, 0, 1⟩).retractRanged ⟨3, 4⟩ = some (b, r) ∧
        b ≠ RetractBranch.antipodal :=
  ⟨unitZ_isUnitDirection, Or.inr (by rw [norm_3_4]; norm_num),
   retract_antipodal_branch_in_range ⟨⟨0, 0, 1⟩⟩ unitZ_isUnitDirection ⟨3, 4⟩
     (Or.inr (by rw [norm_3_4]; norm_num))⟩

theorem localCoordinatesChecked_of_dot_gt (u y : Unit3) (h : u.p_.dot y.p_ > 1 - 1e-16) :
    u.localCoordinatesChecked y = some (Ranged.finite ⟨0, 0⟩) := by
  simp only [localCoordinatesChecked, Point3.vector]
  rw [if_pos h]

theorem localCoordinatesChecked_of_dot_lt (u y : Unit3) (h : u.p_.dot y.p_ < -1 + 1e-16) :
    u.localCoordinatesChecked y = some (Ranged.finite ⟨Real.pi, 0⟩) := by
  simp only [localCoordinatesChecked, Point3.vector]
  rw [if_neg (by norm_num at h ⊢; linarith), if_pos h]

/-- Between the two guards of `localCoordinates` the divisor `sin(acos(c))` is positive. -/
theorem sin_arccos_pos {c : ℝ} (hlo : -1 + 1e-16 ≤ c) (hhi : c ≤ 1 - 1e-16) :
    0 < Real.sin (Real.arccos c) := by
  have hc1 : c < 1 := by norm_num at hhi; linarith
  have hc2 : -1 < c := by norm_num at hlo; linarith
  rw [Real.sin_arccos]
  exact Real.sqrt_pos.mpr (by nlinarith)

/-- The checked division of `localCoordinates` never meets a zero divisor, and the value is
the one `localCoordinates` returns. -/
theorem localCoordinatesChecked_eq (p y : Unit3) :
    ∃ v, p.localCoordinatesChecked y = some (Ranged.finite v) ∧
      p.localCoordinates y = some v := by
  obtain ⟨B, hB⟩ := basis_isSome p
  by_cases h1 : p.p_.dot y.p_ > 1 - 1e-16
  · exact ⟨_, localCoordinatesChecked_of_dot_gt p y h1, localCoordinates_of_dot_gt p y h1⟩
  · by_cases h2 : p.p_.dot y.p_ < -1 + 1e-16
    · exact ⟨_, localCoordinatesChecked_of_dot_lt p y h2, localCoordinates_of_dot_lt p y h2⟩
    · refine ⟨_, ?_, localCoordinates_of_frame p y hB h1 h2⟩
      have hs := (sin_arccos_pos (not_lt.mp h2) (not_lt.mp h1)).ne'
      simp only [localCoordinatesChecked, Point3.vector]
      rw [if_neg h1, if_neg h2]
      simp [hB, hs]

/-- C20: for all unit directions `p` and `y`, `localCoordinates(p, y)` with its division
checked meets no zero divisor and returns a finite 2-vector, the one that `localCoordinates`
returns; and whenever neither fallback branch is taken (`-1 + 1e-16 ≤ p · y ≤ 1 - 1e-16`)
the divisor `sin(acos(p · y))` is strictly positive. -/
theorem localCoordinates_never_divides_by_zero (p y : Unit3) (_hp : p.IsUnitDirection)
    (_hy : y.IsUnitDirection) :
    (∃ v, p.localCoordinatesChecked y = some (Ranged.finite v) ∧
      p.localCoordinates y = some v) ∧
    (-1 + 1e-16 ≤ p.p_.dot y.p_ → p.p_.dot y.p_ ≤ 1 - 1e-16 →
      0 < Real.sin (Real.arccos (p.p_.dot y.p_))) :=
  ⟨localCoordinatesChecked_eq p y, fun hlo hhi => sin_arccos_pos hlo hhi⟩

/-- C20 at `p = (0,0,1)`, `y = (1,0,0)`. -/
theorem localCoordinates_never_divides_by_zero_witness :
    (Unit3.mk ⟨0, 0, 1⟩).IsUnitDirection ∧ (Unit3.mk ⟨1, 0, 0⟩).IsUnitDirection ∧
    (∃ v, (Unit3.mk ⟨0, 0, 1⟩).localCoordinatesChecked ⟨⟨1, 0, 0⟩⟩ = some (Ranged.finite v) ∧
      (Unit3.mk ⟨0, 0, 1⟩).localCoordinates ⟨⟨1, 0, 0⟩⟩ = some v) ∧
    (-1 + 1e-16 ≤ (Point3.mk 0 0 1).dot ⟨1, 0, 0⟩ → (Point3.mk 0 0 1).dot ⟨1, 0, 0⟩ ≤ 1 - 1e-16 →
      0 < Real.sin (Real.arccos ((Point3.mk 0 0 1).dot ⟨1, 0, 0⟩))) :=
  ⟨unitZ_isUnitDirection, by simp [IsUnitDirection, Point3.norm],
   localCoordinates_never_divides_by_zero ⟨⟨0, 0, 1⟩⟩ ⟨⟨1, 0, 0⟩⟩ unitZ_isUnitDirection
     (by simp [IsUnitDirection, Point3.norm])⟩

end Unit3

namespace QuaternionChart

/-- C13, evaluated on the code: at the input of `TEST(Quaternion, Local)`, the identity and
the rotation by 0.1 about z, `QuaternionChart::local` returns the content `uninit` of its
default-constructed vector, whatever `p` and `q` are; so no content makes the round trip
`local(p, retract(p, v)) = v` hold both at `v = (0,0,0.1)` and at `v = (0,0,0.2)`. -/
theorem local_ignores_arguments (uninit : Vector3) :
    local_ uninit (Quaternion.ofAngleAxis 0 ⟨0, 0, 1⟩) (Quaternion.ofAngleAxis 0.1 ⟨0, 0, 1⟩)
      = uninit ∧
    ¬ (local_ uninit (Quaternion.ofAngleAxis 0 ⟨0, 0, 1⟩)
          (retract (Quaternion.ofAngleAxis 0 ⟨0, 0, 1⟩) ⟨0, 0, 0.1⟩) = ⟨0, 0, 0.1⟩ ∧
       local_ uninit (Quaternion.ofAngleAxis 0 ⟨0, 0, 1⟩)
          (retract (Quaternion.ofAngleAxis 0 ⟨0, 0, 1⟩) ⟨0, 0, 0.2⟩) = ⟨0, 0, 0.2⟩) := by
  refine ⟨rfl, ?_⟩
  rintro ⟨h1, h2⟩
  simp only [local_] at h1 h2
  rw [h1] at h2
  have := congrArg Point3.z h2
  norm_num at this

theorem norm_z (a : ℝ) (ha : 0 ≤ a) : (Point3.mk 0 0 a).norm = a := by
  simp only [Point3.norm, mul_zero, zero_add]
  exact Real.sqrt_mul_self ha

theorem identity_isUnitQuaternion : (Quaternion.ofAngleAxis 0 ⟨0, 0, 1⟩).IsUnitQuaternion := by
  simp [Quaternion.IsUnitQuaternion, Quaternion.ofAngleAxis]

/-- C19 fails as stated: the identity is a unit quaternion and `v = (1e200, 0, 0)` has
`‖v‖ ≥ 1e-10`, yet `QuaternionChart::retract(identity, v)` over doubles is no quaternion
`p · r`: `v.norm()` overflows to infinity and the coefficients returned are NaN. -/
theorem retract_overflow_quaternion :
    (Quaternion.ofAngleAxis 0 ⟨0, 0, 1⟩).IsUnitQuaternion ∧
    1e-10 ≤ (Point3.mk 1e200 0 0).norm ∧
    retractRanged (Quaternion.ofAngleAxis 0 ⟨0, 0, 1⟩) ⟨1e200, 0, 0⟩ = Ranged.nonFinite ∧
    ∀ r : Quaternion, retractRanged (Quaternion.ofAngleAxis 0 ⟨0, 0, 1⟩) ⟨1e200, 0, 0⟩
      ≠ Ranged.finite ((Quaternion.ofAngleAxis 0 ⟨0, 0, 1⟩).mul r) := by
  have h : retractRanged (Quaternion.ofAngleAxis 0 ⟨0, 0, 1⟩) ⟨1e200, 0, 0⟩
      = Ranged.nonFinite := by
    simp only [retractRanged, Point3.normRanged_axis_huge]
  refine ⟨identity_isUnitQuaternion, by rw [Point3.norm_x_axis _ (by norm_num)]; norm_num, h, ?_⟩
  intro r
  rw [h]
  simp

theorem retractRanged_angle_axis (p : Quaternion) (v : Vector3) (hlo : 1e-10 ≤ v.norm)
    (hhi : v.norm ≤ 1000) :
    retractRanged p v = Ranged.finite (p.mul ⟨Real.cos (v.norm / 2),
      Real.sin (v.norm / 2) * (v.x / v.norm), Real.sin (v.norm / 2) * (v.y / v.norm),
      Real.sin (v.norm / 2) * (v.z / v.norm)⟩) := by
  have h : ¬ |v.norm| < 1e-10 := by
    rw [abs_of_nonneg v.norm_nonneg]
    exact not_lt.mpr hlo
  have hn := Point3.normRanged_eq_norm v (le_trans (by norm_num) hlo) (le_trans hhi (by norm_num))
  simp only [retractRanged, hn, if_neg h, Quaternion.ofAngleAxis, Point3.div_x, Point3.div_y,
    Point3.div_z]

/-- C19 (as amended): for every unit quaternion `p` and every 3-vector `v` with
`1e-10 ≤ ‖v‖ ≤ 1000`, `QuaternionChart::retract(p, v)` over doubles is `p · r` with
`r = (cos(‖v‖/2), sin(‖v‖/2) · v / ‖v‖)`; and `retract(identity, (0,0,0.1))` is the rotation
by 0.1 about z, as in `TEST(Quaternion, Retract)`. -/
theorem retract_angle_axis_in_range (p : Quaternion) (v : Vector3) (_hp : p.IsUnitQuaternion)
    (hlo : 1e-10 ≤ v.norm) (hhi : v.norm ≤ 1000) :
    retractRanged p v = Ranged.finite (p.mul ⟨Real.cos (v.norm / 2),
      Real.sin (v.norm / 2) * (v.x / v.norm), Real.sin (v.norm / 2) * (v.y / v.norm),
      Real.sin (v.norm / 2) * (v.z / v.norm)⟩) ∧
    retractRanged (Quaternion.ofAngleAxis 0 ⟨0, 0, 1⟩) ⟨0, 0, 0.1⟩
      = Ranged.finite (Quaternion.ofAngleAxis 0.1 ⟨0, 0, 1⟩) := by
  refine ⟨retractRanged_angle_axis p v hlo hhi, ?_⟩
  have hn : (Point3.mk 0 0 0.1).norm = 0.1 := norm_z 0.1 (by norm_num)
  rw [retractRanged_angle_axis _ _ (by rw [hn]; norm_num) (by rw [hn]; norm_num), hn]
  simp only [Quaternion.ofAngleAxis, Quaternion.mul]
  congr 1
  ext <;> simp
  norm_num

/-- C19 (as amended) at the identity and `v = (0, 0, 0.1)`, the input of the test. -/
theorem retract_angle_axis_in_range_witness :
    (Quaternion.ofAngleAxis 0 ⟨0, 0, 1⟩).IsUnitQuaternion ∧
    1e-10 ≤ (Point3.mk 0 0 0.1).norm ∧ (Point3.mk 0 0 0.1).norm ≤ 1000 ∧
    retractRanged (Quaternion.ofAngleAxis 0 ⟨0, 0, 1⟩) ⟨0, 0, 0.1⟩
      = Ranged.finite ((Quaternion.ofAngleAxis 0 ⟨0, 0, 1⟩).mul
        ⟨Real.cos ((Point3.mk 0 0 0.1).norm / 2),
         Real.sin ((Point3.mk 0 0 0.1).norm / 2) * ((Point3.mk 0 0 0.1).x / (Point3.mk 0 0 0.1).norm),
         Real.sin ((Point3.mk 0 0 0.1).norm / 2) * ((Point3.mk 0 0 0.1).y / (Point3.mk 0 0 0.1).norm),
         Real.sin ((Point3.mk 0 0 0.1).norm / 2) * ((Point3.mk 0 0 0.1).z / (Point3.mk 0 0 0.1).norm)⟩) ∧
    retractRanged (Quaternion.ofAngleAxis 0 ⟨0, 0, 1⟩) ⟨0, 0, 0.1⟩
      = Ranged.finite (Quaternion.ofAngleAxis 0.1 ⟨0, 0, 1⟩) :=
  ⟨identity_isUnitQuaternion, by rw [norm_z 0.1 (by norm_num)]; norm_num,
   by rw [norm_z 0.1 (by norm_num)]; norm_num,
   retract_angle_axis_in_range (Quaternion.ofAngleAxis 0 ⟨0, 0, 1⟩) ⟨0, 0, 0.1⟩
     identity_isUnitQuaternion (by rw [norm_z 0.1 (by norm_num)]; norm_num)
     (by rw [norm_z 0.1 (by norm_num)]; norm_num)⟩

end QuaternionChart

namespace VerticalBlockMatrix

theorem offsetsFrom_getD (ds : List Nat) : ∀ (s k : Nat), k ≤ ds.length →
    (offsetsFrom s ds).getD k 0 = s + (ds.take k).sum := by
  induction ds with
  | nil => intro s k hk; simp at hk; subst hk; simp [offsetsFrom]
  | cons d ds ih =>
    intro s k hk
    cases k with
    | zero => simp [offsetsFrom]
    | succ k =>
      simp only [offsetsFrom, List.getD_cons_succ, List.take_succ_cons, List.sum_cons]
      rw [ih (s + d) k (by simpa using hk)]
      omega

theorem offsetsFrom_getLastD (ds : List Nat) : ∀ (s : Nat),
    (offsetsFrom s ds).getLastD 0 = s + ds.sum := by
  induction ds with
  | nil => intro s; simp [offsetsFrom]
  | cons d ds ih =>
    intro s
    cases ds with
    | nil => simp [offsetsFrom]
    | cons e es =>
      have := ih (s + d)
      simp only [offsetsFrom, List.getLastD_cons, List.sum_cons] at this ⊢
      rw [this]; omega

theorem sum_take_le_succ (ds : List Nat) (k : Nat) :
    (ds.take k).sum ≤ (ds.take (k + 1)).sum := by
  induction ds generalizing k with
  | nil => simp
  | cons d ds ih =>
    cases k with
    | zero => simp
    | succ k => simp only [List.take_succ_cons, List.sum_cons]; have := ih k; omega

theorem sum_take_mono (ds : List Nat) {j k : Nat} (h : j ≤ k) :
    (ds.take j).sum ≤ (ds.take k).sum := by
  induction h with
  | refl => exact le_rfl
  | step _ ih => exact le_trans ih (sum_take_le_succ ds _)

theorem sum_take_succ_eq (ds : List Nat) (k d : Nat) (h : ds[k]? = some d) :
    (ds.take (k + 1)).sum = (ds.take k).sum + d := by
  induction ds generalizing k with
  | nil => simp at h
  | cons e es ih =>
    cases k with
    | zero => simp at h; subst h; simp
    | succ k =>
      simp only [List.getElem?_cons_succ] at h
      simp only [List.take_succ_cons, List.sum_cons, ih k h]; omega

end VerticalBlockMatrix

namespace ExpressionFactor

variable {Values T R W : Type}

open VerticalBlockMatrix

theorem addTerms_offsets (ts : List (Key × MatrixX R)) : ∀ (i : Nat) (Ab : VerticalBlockMatrix R),
    (addTerms ts i Ab).variableColOffsets_ = Ab.variableColOffsets_ := by
  induction ts with
  | nil => intro i Ab; rfl
  | cons t ts ih => intro i Ab; simp only [addTerms]; rw [ih]; rfl

theorem addTerms_rows (ts : List (Key × MatrixX R)) : ∀ (i : Nat) (Ab : VerticalBlockMatrix R),
    (addTerms ts i Ab).matrix_.rows = Ab.matrix_.rows := by
  induction ts with
  | nil => intro i Ab; rfl
  | cons t ts ih => intro i Ab; simp only [addTerms]; rw [ih]; rfl

theorem addTerms_cols (ts : List (Key × MatrixX R)) : ∀ (i : Nat) (Ab : VerticalBlockMatrix R),
    (addTerms ts i Ab).matrix_.cols = Ab.matrix_.cols := by
  induction ts with
  | nil => intro i Ab; rfl
  | cons t ts ih => intro i Ab; simp only [addTerms]; rw [ih]; rfl

/-- C7: `linearize(x)` returns the null result if and only if the activity predicate is false
at `x`, and it returns a factor exactly when the factor is active at `x`. -/
theorem linearize_none_iff_inactive [Neg R] (f : ExpressionFactor Values T R W)
    (uninit : Nat → Nat → R) (x : Values) :
    (f.linearize uninit x = none ↔ f.active x = false) ∧
    (f.linearize uninit x).isSome = f.active x := by
  unfold linearize
  cases ha : f.active x <;> cases hm : f.noiseModel_ <;> simp

theorem col_setBlockCol (Ab : VerticalBlockMatrix R) (n : Nat) (b : VectorX R)
    (hrows : Ab.matrix_.rows = b.length) :
    (Ab.setBlockCol n 0 b).matrix_.col (Ab.offset n) = b := by
  simp only [MatrixX.col, setBlockCol, hrows, add_zero, if_true]
  apply List.ext_getElem?
  intro r
  by_cases hr : r < b.length
  · simp [List.getElem?_range hr, List.getElem?_eq_getElem hr]
  · rw [List.getElem?_eq_none (by simpa using hr), List.getElem?_eq_none (by simpa using hr)]


theorem create_offsets (dims : List Nat) (h : Nat) (u : Nat → Nat → R) :
    (VerticalBlockMatrix.create dims h true u).variableColOffsets_
      = offsetsFrom 0 (dims ++ [1]) := by
  simp [VerticalBlockMatrix.create, fillOffsets]

theorem offset_eq (Ab : VerticalBlockMatrix R) (ds : List Nat)
    (h : Ab.variableColOffsets_ = offsetsFrom 0 ds) (k : Nat) (hk : k ≤ ds.length) :
    Ab.offset k = (ds.take k).sum := by
  rw [offset, h, offsetsFrom_getD ds 0 k hk, Nat.zero_add]

/-- The factor `linearize` returns when the factor is active. -/
theorem linearize_active [Neg R] (f : ExpressionFactor Values T R W)
    (uninit : Nat → Nat → R) (x : Values) (ha : f.active x = true) :
    ∃ m, f.linearize uninit x = some ⟨f.expression_.dimensions.keys,
      (addTerms (f.expression_.jacobians x).entries 0
        (VerticalBlockMatrix.create f.expression_.dimensions.values
          ((f.localCoordinates f.measurement_ (f.expression_.value x)).map Neg.neg).length
          true uninit)).setBlockCol f.expression_.dimensions.size 0
        ((f.localCoordinates f.measurement_ (f.expression_.value x)).map Neg.neg), m⟩ := by
  unfold linearize
  cases hm : f.noiseModel_ <;> simp [ha]

/-- C5: at every assignment `x` where the factor is active, `linearize(x)` returns a factor
whose last matrix column is `-measurement.localCoordinates(expression.value(x))`, the
negation of the vector `unwhitenedError(x)` returns. -/
theorem linearize_last_column [Neg R] (f : ExpressionFactor Values T R W)
    (uninit : Nat → Nat → R) (x : Values) (ha : f.active x = true) :
    ∃ jf, f.linearize uninit x = some jf ∧
      jf.Ab_.matrix_.col (jf.Ab_.matrix_.cols - 1)
        = (f.localCoordinates f.measurement_ (f.expression_.value x)).map Neg.neg ∧
      ∃ e, f.unwhitenedError x none = some (e, none) ∧
        jf.Ab_.matrix_.col (jf.Ab_.matrix_.cols - 1) = e.map Neg.neg := by
  obtain ⟨m, hm⟩ := linearize_active f uninit x ha
  have hcol : ∀ (b : VectorX R),
      ((addTerms (f.expression_.jacobians x).entries 0
        (VerticalBlockMatrix.create f.expression_.dimensions.values b.length
          true uninit)).setBlockCol f.expression_.dimensions.size 0 b).matrix_.col
        (((addTerms (f.expression_.jacobians x).entries 0
        (VerticalBlockMatrix.create f.expression_.dimensions.values b.length
          true uninit)).setBlockCol f.expression_.dimensions.size 0 b).matrix_.cols - 1) = b := by
    intro b
    have hoff := (addTerms_offsets (f.expression_.jacobians x).entries 0
        (VerticalBlockMatrix.create f.expression_.dimensions.values b.length true uninit)).trans
        (create_offsets _ _ _)
    have hn : f.expression_.dimensions.size = f.expression_.dimensions.values.length := by
      simp [StdMap.size, StdMap.values]
    have ho := offset_eq _ _ hoff f.expression_.dimensions.size (by simp [hn])
    rw [hn, List.take_left'  rfl] at ho
    have hc : ((addTerms (f.expression_.jacobians x).entries 0
        (VerticalBlockMatrix.create f.expression_.dimensions.values b.length
          true uninit)).setBlockCol f.expression_.dimensions.size 0 b).matrix_.cols - 1
        = (addTerms (f.expression_.jacobians x).entries 0
        (VerticalBlockMatrix.create f.expression_.dimensions.values b.length
          true uninit)).offset f.expression_.dimensions.size := by
      rw [hn, ho]
      show (addTerms _ 0 _).matrix_.cols - 1 = _
      rw [addTerms_cols]
      show (offsetsFrom 0 (f.expression_.dimensions.values ++ [1])).getLastD 0 - 1 = _
      rw [offsetsFrom_getLastD]
      simp
    rw [hc]
    exact col_setBlockCol _ _ _ (by rw [addTerms_rows]; rfl)
  refine ⟨_, hm, hcol _, _, rfl, hcol _⟩


theorem addTerms_coeff_left (ds : List Nat) (ts : List (Key × MatrixX R)) :
    ∀ (i : Nat) (Ab : VerticalBlockMatrix R), Ab.variableColOffsets_ = offsetsFrom 0 ds →
      i + ts.length ≤ ds.length → ∀ (r c : Nat), c < (ds.take i).sum →
      (addTerms ts i Ab).matrix_.coeff r c = Ab.matrix_.coeff r c := by
  induction ts with
  | nil => intro i Ab _ _ r c _; rfl
  | cons t ts ih =>
    intro i Ab hoff hlen r c hc
    simp only [List.length_cons] at hlen
    simp only [addTerms]
    rw [ih (i + 1) (Ab.setBlock i t.2) hoff (by omega) r c
      (lt_of_lt_of_le hc (sum_take_le_succ ds i))]
    have hi := offset_eq Ab ds hoff i (by omega)
    simp only [setBlock]
    rw [if_neg]
    rw [hi]
    omega

theorem addTerms_coeff_hit (ds : List Nat) (ts : List (Key × MatrixX R)) :
    ∀ (i : Nat) (Ab : VerticalBlockMatrix R), Ab.variableColOffsets_ = offsetsFrom 0 ds →
      i + ts.length ≤ ds.length → ∀ (j : Nat) (k : Key) (A : MatrixX R),
      ts[j]? = some (k, A) → ∀ (r c : Nat), r < Ab.matrix_.rows →
      (ds.take (i + j)).sum ≤ c → c < (ds.take (i + j + 1)).sum →
      (addTerms ts i Ab).matrix_.coeff r c = A.coeff r (c - (ds.take (i + j)).sum) := by
  induction ts with
  | nil => intro i Ab _ _ j k A h; simp at h
  | cons t ts ih =>
    intro i Ab hoff hlen j k A h r c hr hlo hhi
    simp only [List.length_cons] at hlen
    simp only [addTerms]
    cases j with
    | zero =>
      simp only [List.getElem?_cons_zero, Option.some.injEq] at h
      simp only [Nat.add_zero] at hlo hhi ⊢
      rw [addTerms_coeff_left ds ts (i + 1) (Ab.setBlock i t.2) hoff (by omega) r c hhi]
      have hi := offset_eq Ab ds hoff i (by omega)
      have hi1 := offset_eq Ab ds hoff (i + 1) (by omega)
      simp only [setBlock]
      rw [if_pos ⟨hr, by rw [hi]; exact hlo, by rw [hi1]; exact hhi⟩, hi, h]
    | succ j =>
      simp only [List.getElem?_cons_succ] at h
      have e : i + (j + 1) = i + 1 + j := by omega
      rw [e] at hlo hhi ⊢
      exact ih (i + 1) (Ab.setBlock i t.2) hoff (by omega) j k A h r c hr hlo hhi

theorem block_setBlockCol_coeff (Ab : VerticalBlockMatrix R) (n j i r c : Nat) (b : VectorX R)
    (h : Ab.offset i + c ≠ Ab.offset n + j) :
    ((Ab.setBlockCol n j b).block i).coeff r c = Ab.matrix_.coeff r (Ab.offset i + c) := by
  show (if Ab.offset i + c = Ab.offset n + j then _ else _) = _
  rw [if_neg h]
  rfl

theorem keys_eq_of_mem_iff {V V' : Type} (m : StdMap V) (m' : StdMap V')
    (h : ∀ k, k ∈ m.keys ↔ k ∈ m'.keys) : m.keys = m'.keys := by
  have hs : m.keys.Sorted (· < ·) := m.sorted
  have hs' : m'.keys.Sorted (· < ·) := m'.sorted
  exact List.eq_of_perm_of_sorted
    ((List.perm_ext_iff_of_nodup hs.nodup hs'.nodup).mpr h) hs hs'


/-- C6: at an active assignment `x` where the Jacobian map has the same key set as the
dimension map, the returned factor lists the keys of the dimension map, in ascending order;
its i-th block has the declared width of the i-th key and holds the coefficients of the
Jacobian block produced for that key; the matrix has (sum of the widths) + 1 columns and as
many rows as the residual has entries. -/
theorem linearize_block_layout [Neg R] (f : ExpressionFactor Values T R W)
    (uninit : Nat → Nat → R) (x : Values) (ha : f.active x = true)
    (hkeys : ∀ k, k ∈ (f.expression_.jacobians x).keys ↔ k ∈ f.expression_.dimensions.keys) :
    ∃ jf, f.linearize uninit x = some jf ∧
      jf.keys_ = f.expression_.dimensions.keys ∧ jf.keys_.Pairwise (· < ·) ∧
      (f.expression_.jacobians x).keys = jf.keys_ ∧
      (∀ i k A, (f.expression_.jacobians x).entries[i]? = some (k, A) →
        jf.keys_[i]? = some k ∧
        ∃ d, f.expression_.dimensions.entries[i]? = some (k, d) ∧
          (jf.Ab_.block i).cols = d ∧
          ∀ r c, r < (jf.Ab_.block i).rows → c < d →
            (jf.Ab_.block i).coeff r c = A.coeff r c) ∧
      jf.Ab_.matrix_.cols = f.expression_.dimensions.values.sum + 1 ∧
      jf.Ab_.matrix_.rows
        = (f.localCoordinates f.measurement_ (f.expression_.value x)).length := by
  obtain ⟨m, hm⟩ := linearize_active f uninit x ha
  have hk := keys_eq_of_mem_iff _ _ hkeys
  generalize hb : (f.localCoordinates f.measurement_ (f.expression_.value x)).map Neg.neg = b
    at hm
  have hblen : b.length
      = (f.localCoordinates f.measurement_ (f.expression_.value x)).length := by
    rw [← hb, List.length_map]
  generalize hterms : f.expression_.jacobians x = terms at hm hk
  generalize hdims : f.expression_.dimensions = dims at hm hk
  have hoff := (addTerms_offsets terms.entries 0
    (VerticalBlockMatrix.create dims.values b.length true uninit)).trans (create_offsets _ _ _)
  have hlen : terms.entries.length = dims.values.length := by
    have := congrArg List.length hk
    simpa [StdMap.keys, StdMap.values] using this
  have hsize : dims.size = dims.values.length := by simp [StdMap.size, StdMap.values]
  refine ⟨_, hm, rfl, dims.sorted, hk, ?_, ?_, ?_⟩
  · intro i k A hi
    have hki : terms.keys[i]? = some k := by
      simp [StdMap.keys, List.getElem?_map, hi]
    rw [hk] at hki
    refine ⟨hki, ?_⟩
    simp only [StdMap.keys, List.getElem?_map, Option.map_eq_some'] at hki
    obtain ⟨⟨k', d⟩, he, hk'⟩ := hki
    simp only at hk'
    subst hk'
    have hilt : i < dims.values.length := by
      rw [← hlen]
      exact (List.getElem?_eq_some_iff.mp hi).1
    have hd : (dims.values ++ [1])[i]? = some d := by
      rw [List.getElem?_append_left hilt]
      simp [StdMap.values, List.getElem?_map, he]
    have hstep := sum_take_succ_eq (dims.values ++ [1]) i d hd
    have hle : ((dims.values ++ [1]).take (i + 1)).sum
        ≤ ((dims.values ++ [1]).take dims.values.length).sum :=
      sum_take_mono _ (by omega)
    have ho_i := offset_eq _ _ hoff i (by simp; omega)
    have ho_i1 := offset_eq _ _ hoff (i + 1) (by simp; omega)
    have ho_n := offset_eq _ _ hoff dims.values.length (by simp)
    refine ⟨d, he, ?_, ?_⟩
    · show VerticalBlockMatrix.offset _ (i + 1) - VerticalBlockMatrix.offset _ i = d
      show (addTerms terms.entries 0 _).offset (i + 1) - (addTerms terms.entries 0 _).offset i = d
      rw [ho_i, ho_i1, hstep]; omega
    · intro r c hr hc
      have hcol : (addTerms terms.entries 0
          (VerticalBlockMatrix.create dims.values b.length true uninit)).offset i + c
          ≠ (addTerms terms.entries 0
          (VerticalBlockMatrix.create dims.values b.length true uninit)).offset dims.size + 0 := by
        rw [hsize, ho_i, ho_n]; omega
      show (((addTerms terms.entries 0 (VerticalBlockMatrix.create dims.values b.length true
        uninit)).setBlockCol dims.size 0 b).block i).coeff r c = _
      rw [block_setBlockCol_coeff _ _ _ _ _ _ _ hcol, ho_i]
      have hr' : r < (VerticalBlockMatrix.create dims.values b.length true uninit).matrix_.rows := by
        have : (addTerms terms.entries 0 (VerticalBlockMatrix.create dims.values b.length true
          uninit)).matrix_.rows = b.length := by rw [addTerms_rows]; rfl
        exact hr.trans_le (le_of_eq this)
      have := addTerms_coeff_hit (dims.values ++ [1]) terms.entries 0
        (VerticalBlockMatrix.create dims.values b.length true uninit) (create_offsets _ _ _)
        (by simp; omega) i k' A hi r (((dims.values ++ [1]).take i).sum + c) hr'
        (by simp) (by simp only [Nat.zero_add]; omega)
      simp only [Nat.zero_add, Nat.add_sub_cancel_left] at this
      exact this
  · show (addTerms terms.entries 0 _).matrix_.cols = _
    rw [addTerms_cols]
    show (offsetsFrom 0 (dims.values ++ [1])).getLastD 0 = _
    rw [offsetsFrom_getLastD]
    simp
  · show (addTerms terms.entries 0 _).matrix_.rows = _
    rw [addTerms_rows]
    exact hblen

/-- C5 at the factor `sumFactor` and the assignment `sumValues`. -/
theorem linearize_last_column_witness :
    sumFactor.active sumValues = true ∧
    ∃ jf, sumFactor.linearize (fun _ _ => 0) sumValues = some jf ∧
      jf.Ab_.matrix_.col (jf.Ab_.matrix_.cols - 1)
        = (sumFactor.localCoordinates sumFactor.measurement_
            (sumFactor.expression_.value sumValues)).map Neg.neg ∧
      ∃ e, sumFactor.unwhitenedError sumValues none = some (e, none) ∧
        jf.Ab_.matrix_.col (jf.Ab_.matrix_.cols - 1) = e.map Neg.neg :=
  ⟨rfl, linearize_last_column sumFactor (fun _ _ => 0) sumValues rfl⟩

/-- C6 at the factor `sumFactor` and the assignment `sumValues`. -/
theorem linearize_block_layout_witness :
    sumFactor.active sumValues = true ∧
    (∀ k, k ∈ (sumFactor.expression_.jacobians sumValues).keys
      ↔ k ∈ sumFactor.expression_.dimensions.keys) ∧
    ∃ jf, sumFactor.linearize (fun _ _ => 0) sumValues = some jf ∧
      jf.keys_ = sumFactor.expression_.dimensions.keys ∧ jf.keys_.Pairwise (· < ·) ∧
      (sumFactor.expression_.jacobians sumValues).keys = jf.keys_ ∧
      (∀ i k A, (sumFactor.expression_.jacobians sumValues).entries[i]? = some (k, A) →
        jf.keys_[i]? = some k ∧
        ∃ d, sumFactor.expression_.dimensions.entries[i]? = some (k, d) ∧
          (jf.Ab_.block i).cols = d ∧
          ∀ r c, r < (jf.Ab_.block i).rows → c < d →
            (jf.Ab_.block i).coeff r c = A.coeff r c) ∧
      jf.Ab_.matrix_.cols = sumFactor.expression_.dimensions.values.sum + 1 ∧
      jf.Ab_.matrix_.rows
        = (sumFactor.localCoordinates sumFactor.measurement_
            (sumFactor.expression_.value sumValues)).length :=
  ⟨rfl, fun _ => Iff.rfl,
   linearize_block_layout sumFactor (fun _ _ => 0) sumValues rfl (fun _ => Iff.rfl)⟩

/-- C14, evaluated on the code: the factor `sumFactor` has the subtraction chart
`localCoordinates(a, b) = b - a`, the measurement `z = 10` and, at `sumValues`, the predicted
value `h(x) = 7`; `unwhitenedError` returns `[-3]`, which is `h(x) - z`, whereas `z - h(x)`
is 3. -/
theorem unwhitenedError_sign :
    (∀ a b : Int, sumFactor.localCoordinates a b = [b - a]) ∧
    sumFactor.measurement_ = 10 ∧ sumFactor.expression_.value sumValues = 7 ∧
    sumFactor.unwhitenedError sumValues none = some ([-3], none) ∧
    sumFactor.measurement_ - sumFactor.expression_.value sumValues = 3 ∧
    sumFactor.expression_.value sumValues - sumFactor.measurement_ = -3 :=
  ⟨fun _ _ => rfl, rfl, rfl, rfl, rfl, rfl⟩

/-- C17: at an active assignment `x`, the factor returned by `linearize` carries the noise
model `constrained.unit()` exactly when the noise model of the factor is of the Constrained
kind and carries none otherwise; replacing the noise model of the factor by any other one
leaves the keys and the block matrix of the result unchanged. -/
theorem linearize_noise_model [Neg R] (f : ExpressionFactor Values T R W)
    (uninit : Nat → Nat → R) (x : Values) (ha : f.active x = true) :
    ∃ jf, f.linearize uninit x = some jf ∧
      (∀ c, f.noiseModel_ = SharedNoiseModel.constrained c → jf.model_ = some c.unit) ∧
      (∀ w, f.noiseModel_ = SharedNoiseModel.other w → jf.model_ = none) ∧
      (jf.model_.isSome ↔ ∃ c, f.noiseModel_ = SharedNoiseModel.constrained c) ∧
      ∀ nm : SharedNoiseModel W, ∃ jf',
        ({ f with noiseModel_ := nm } : ExpressionFactor Values T R W).linearize uninit x
          = some jf' ∧ jf'.keys_ = jf.keys_ ∧ jf'.Ab_ = jf.Ab_ := by
  have key : ∀ g : ExpressionFactor Values T R W, g.active x = true →
      g.linearize uninit x = some ⟨g.expression_.dimensions.keys,
        (addTerms (g.expression_.jacobians x).entries 0
          (VerticalBlockMatrix.create g.expression_.dimensions.values
            ((g.localCoordinates g.measurement_ (g.expression_.value x)).map Neg.neg).length
            true uninit)).setBlockCol g.expression_.dimensions.size 0
          ((g.localCoordinates g.measurement_ (g.expression_.value x)).map Neg.neg),
        match g.noiseModel_ with
        | SharedNoiseModel.constrained c => some c.unit
        | SharedNoiseModel.other _ => none⟩ := by
    intro g hg
    unfold linearize
    cases hm : g.noiseModel_ <;> simp [hg]
  refine ⟨_, key f ha, ?_, ?_, ?_, ?_⟩
  · intro c hc; simp only [hc]
  · intro w hw; simp only [hw]
  · cases hm : f.noiseModel_ <;> simp
  · intro nm
    exact ⟨_, key { f with noiseModel_ := nm } ha, rfl, rfl⟩

/-- C17 at the factor `constrainedSumFactor`, whose noise model is of the Constrained kind
with `unit()` different from the model itself, and the assignment `sumValues`: the factor
returned carries "unit"; the factor `sumFactor`, the same with a noise model of another
kind, returns a factor that carries none. -/
theorem linearize_noise_model_witness :
    constrainedSumFactor.active sumValues = true ∧
    (constrainedSumFactor.linearize (fun _ _ => 0) sumValues).map (fun jf => jf.model_)
      = some (some "unit") ∧
    (sumFactor.linearize (fun _ _ => 0) sumValues).map (fun jf => jf.model_) = some none ∧
    ∃ jf, constrainedSumFactor.linearize (fun _ _ => 0) sumValues = some jf ∧
      (∀ c, constrainedSumFactor.noiseModel_ = SharedNoiseModel.constrained c →
        jf.model_ = some c.unit) ∧
      (∀ w, constrainedSumFactor.noiseModel_ = SharedNoiseModel.other w → jf.model_ = none) ∧
      (jf.model_.isSome ↔ ∃ c, constrainedSumFactor.noiseModel_ = SharedNoiseModel.constrained c) ∧
      ∀ nm : SharedNoiseModel String, ∃ jf',
        ({ constrainedSumFactor with noiseModel_ := nm } :
            ExpressionFactor (Key → Int) Int Int String).linearize
          (fun _ _ => 0) sumValues = some jf' ∧ jf'.keys_ = jf.keys_ ∧ jf'.Ab_ = jf.Ab_ :=
  ⟨rfl, rfl, rfl, linearize_noise_model constrainedSumFactor (fun _ _ => 0) sumValues rfl⟩

theorem move_length (jacobians : JacobianMap R) (H : List (MatrixX R)) :
    (move jacobians H).length = H.length := by
  simp [move]

theorem move_getElem? (jacobians : JacobianMap R) (H : List (MatrixX R)) (j : Nat) (k : Key)
    (A : MatrixX R) (hj : j < H.length) (h : jacobians.entries[j]? = some (k, A)) :
    (move jacobians H)[j]? = some A := by
  simp only [move, List.getElem?_map, List.getElem?_enum, List.getElem?_eq_getElem hj,
    Option.map_some', h]

theorem move_eq_values (jacobians : JacobianMap R) (H : List (MatrixX R))
    (h : jacobians.size = H.length) : move jacobians H = jacobians.values := by
  apply List.ext_getElem?
  intro j
  by_cases hj : j < H.length
  · have hj' : j < jacobians.entries.length := by rw [← StdMap.size, h]; exact hj
    rw [move_getElem? jacobians H j (jacobians.entries[j]).1 (jacobians.entries[j]).2 hj
      (List.getElem?_eq_getElem hj')]
    simp [StdMap.values, List.getElem?_map, List.getElem?_eq_getElem hj']
  · rw [List.getElem?_eq_none (by rw [move_length]; omega),
      List.getElem?_eq_none (by simp [StdMap.values]; rw [← StdMap.size, h]; omega)]

/-- C18: `unwhitenedError(x, H)` fails its assertion, returning neither a residual nor a
container, whenever `H.size()` differs from the number of keys.  When the sizes agree it
returns the residual and a container of the same size whose entry `j` is the Jacobian block
of the j-th key of the Jacobian map, in ascending key order; when the map has one block per
key, the container is exactly that list of blocks. -/
theorem unwhitenedError_sized (f : ExpressionFactor Values T R W) (x : Values)
    (H : List (MatrixX R)) :
    (H.length ≠ f.size → f.unwhitenedError x (some H) = none) ∧
    (H.length = f.size → ∃ H',
      f.unwhitenedError x (some H)
        = some (f.localCoordinates f.measurement_ (f.expression_.value x), some H') ∧
      H'.length = H.length ∧
      (∀ j k A, j < H.length → (f.expression_.jacobians x).entries[j]? = some (k, A) →
        H'[j]? = some A) ∧
      ((f.expression_.jacobians x).size = f.size → H' = (f.expression_.jacobians x).values)) := by
  constructor
  · intro h
    simp [unwhitenedError, h]
  · intro h
    refine ⟨move (f.expression_.jacobians x) H, by simp [unwhitenedError, h], move_length _ _,
      fun j k A hj hA => move_getElem? _ _ j k A hj hA, fun hs => move_eq_values _ _ (hs.trans h.symm)⟩

end ExpressionFactor

end gtsam
